import Mathlib

set_option maxRecDepth 8000

/-!
# Verification of the ini2json typed value engine

Shallow embedding of the value-coercion core of `ini2json.go`:

* `intSetString` models `new(big.Int).SetString(value, 10)`;
* `floatScan` / `parseFloat256` model
  `big.ParseFloat(value, 10, 256, big.ToNearestEven)`;
* `strconvParseBool` models `strconv.ParseBool(value)`;
* `jsonUnmarshal` models `json.Unmarshal([]byte(value), &jsval)`;
* `coercion` models the if/else classification chain in `typedValues.Add`;
* `typedValues.Add` models the map update `v[key] = append(v[key], jsval)`;
* `marshalBF` models `bigFloat.MarshalJSON` (i.e. `big.Float.MarshalText`)
  at the level of the denoted numeric value;
* `bigIntText` models `big.Int.MarshalJSON` (decimal text).

Machine integers are modelled as `Nat`/`Int`; the arbitrary-precision
decimal value of a 256-bit `big.Float` is modelled as an exact rational
(finite case) or a signed infinity.
-/

namespace Ini2Json

/-! ## Decimal digit characters -/

/-- Is `c` one of the characters `'0'..'9'`? -/
def isDigitChar (c : Char) : Bool :=
  '0' ≤ c && c ≤ '9'

/-- The numeric value of a decimal digit character (`'0' ↦ 0`, …, `'9' ↦ 9`). -/
def digitVal (c : Char) : ℕ :=
  c.toNat - 48

/-- The decimal digit character of a digit value `< 10`. -/
def digitChar (d : ℕ) : Char :=
  Char.ofNat (48 + d)

/-- Value of a most-significant-first list of decimal digit characters. -/
def digitsVal (l : List Char) : ℕ :=
  l.foldl (fun a c => a * 10 + digitVal c) 0

/-- Little-endian digit list of `n` (empty for `0`), driven by explicit fuel;
`fuel ≥ n` suffices. -/
def digitsRev : ℕ → ℕ → List ℕ
  | 0, _ => []
  | _, 0 => []
  | fuel + 1, n => n % 10 :: digitsRev fuel (n / 10)

/-- Decimal digit characters of `n`, most significant first (`"0"` for zero),
as produced by Go's decimal formatting of a natural number. -/
def natToChars (n : ℕ) : List Char :=
  if n = 0 then ['0'] else ((digitsRev n n).reverse).map digitChar

/-! ## `big.Int.SetString(value, 10)`

Go's `big.Int.SetString` with base 10 accepts an optional leading `+` or `-`
sign followed by one or more decimal digits, and requires the whole string to
be consumed (underscore separators are only accepted with base 0). -/

/-- Parse a nonempty all-digit character list; `none` if empty or if any
character is not a decimal digit. -/
def parseAllDigits (l : List Char) : Option ℕ :=
  match l with
  | [] => none
  | _ =>
    let rec go (acc : ℕ) : List Char → Option ℕ
      | [] => some acc
      | c :: cs => if isDigitChar c then go (acc * 10 + digitVal c) cs else none
    go 0 l

/-- Model of `new(big.Int).SetString(value, 10)`: optional sign, then one or
more base-10 digits, nothing else. -/
def intSetString (s : String) : Option ℤ :=
  match s.data with
  | [] => none
  | c :: rest =>
    if c = '+' then (parseAllDigits rest).map (fun n => (n : ℤ))
    else if c = '-' then (parseAllDigits rest).map (fun n => -(n : ℤ))
    else (parseAllDigits (c :: rest)).map (fun n => (n : ℤ))

/-- Model of `big.Int.MarshalJSON` (the decimal text of the integer, as
produced by `big.Int.String`). -/
def bigIntText (n : ℤ) : String :=
  if n < 0 then String.mk ('-' :: natToChars n.natAbs)
  else String.mk (natToChars n.natAbs)

/-! ## `big.ParseFloat(value, 10, 256, big.ToNearestEven)`

Go's `big.Float` at precision 256: the stored value is the exact decimal value
of the literal, rounded to a 256-bit mantissa with round-to-nearest-even.
The value is modelled as an exact rational (`BF.finite`) or a signed infinity
(`BF.inf`); the sign of a `big.Float` zero is not tracked (a negative zero is
modelled as the rational `0`, which has the same mathematical value). -/

/-- The value of a 256-bit `big.Float`: a finite exact rational or a signed
infinity. -/
inductive BF where
  | finite (q : ℚ) : BF
  | inf (neg : Bool) : BF
  deriving DecidableEq

/-- Syntactic scan result for a `big.Float` literal: an infinity spelling or a
finite literal together with its exact mathematical value. -/
inductive FloatTok where
  | inf (neg : Bool) : FloatTok
  | fin (q : ℚ) : FloatTok
  deriving DecidableEq

/-- Largest `l` with `2 ^ l ≤ n`, for `1 ≤ n ≤ fuel` (0 otherwise). -/
def natLog2 : ℕ → ℕ → ℕ
  | 0, _ => 0
  | fuel + 1, n => if n ≤ 1 then 0 else natLog2 fuel (n / 2) + 1

/-- Smallest `t` with `m ≤ 2 ^ t`, for `1 ≤ m ≤ fuel` (0 otherwise). -/
def natClog2 : ℕ → ℕ → ℕ
  | 0, _ => 0
  | fuel + 1, m => if m ≤ 1 then 0 else natClog2 fuel ((m + 1) / 2) + 1

/-- Binary logarithm of a positive rational, rounded down:
`2 ^ ratLog2 q ≤ q < 2 ^ (ratLog2 q + 1)` for `0 < q`. -/
def ratLog2 (q : ℚ) : ℤ :=
  if 1 ≤ q then (natLog2 ⌊q⌋₊ ⌊q⌋₊ : ℤ) else -(natClog2 ⌈q⁻¹⌉₊ ⌈q⁻¹⌉₊ : ℤ)

/-- Binary exponentiation with explicit fuel (`fuel ≥ n` suffices); evaluates
in `O(log n)` steps. -/
def natPowFuel : ℕ → ℕ → ℕ → ℕ
  | 0, _, _ => 1
  | fuel + 1, b, n =>
    if n = 0 then 1
    else
      let h := natPowFuel fuel b (n / 2)
      if n % 2 = 0 then h * h else h * h * b

/-- `b ^ n` on naturals, computed by binary exponentiation (equal to `b ^ n`
by `natPow_eq`). -/
def natPow (b n : ℕ) : ℕ := natPowFuel n b n

/-- `q * b ^ e` for a rational `q`, natural base `b` and integer exponent `e`,
computed through natural-number powers (which evaluate cheaply); equal to
`q * (b : ℚ) ^ e` by `mulPow_eq_zpow`. -/
def mulPow (q : ℚ) (b : ℕ) (e : ℤ) : ℚ :=
  if 0 ≤ e then q * ((natPow b e.toNat : ℕ) : ℚ) else q / ((natPow b (-e).toNat : ℕ) : ℚ)

/-- Round a rational to the nearest integer, ties to even. -/
def roundNearestEven (x : ℚ) : ℤ :=
  let n := ⌊x⌋
  if x - n < 1 / 2 then n
  else if 1 / 2 < x - n then n + 1
  else if Even n then n else n + 1

/-- `big.Float` maximum exponent (`math.MaxInt32`); a rounded result whose
binary exponent exceeds it overflows to infinity. -/
def maxExpBF : ℤ := 2 ^ 31 - 1

/-- `big.Float` minimum exponent (`math.MinInt32`); a rounded result whose
binary exponent is below it underflows to zero. -/
def minExpBF : ℤ := -(2 ^ 31)

/-- Round an exact rational to a 256-bit mantissa, round-to-nearest-even, with
`big.Float`'s exponent clamp (overflow to `±Inf`, underflow to `0`).  The
binary exponent `e` is chosen so that `2^(e-1) ≤ |q| < 2^e`, matching
`big.Float`'s normalized mantissa in `[1/2, 1)` scaled by `2^e`. -/
def round256 (q : ℚ) : BF :=
  if q = 0 then .finite 0
  else
    let a : ℚ := if q < 0 then -q else q
    let e : ℤ := ratLog2 a + 1
    let m : ℤ := roundNearestEven (mulPow a 2 (256 - e))
    let me : ℤ × ℤ := if m = (natPow 2 256 : ℕ) then ((natPow 2 255 : ℕ), e + 1) else (m, e)
    if maxExpBF < me.2 then .inf (q < 0)
    else if me.2 < minExpBF then .finite 0
    else .finite (mulPow ((if q < 0 then -1 else 1) * (me.1 : ℚ)) 2 (me.2 - 256))

/-- Exact value of a scanned mantissa/exponent: sign, integer digits, fraction
digits, exponent base (10 for `e`/`E`, 2 for `p`/`P`) and exponent. -/
def mantVal (neg : Bool) (intDs fracDs : List Char) (eb : ℕ) (exp : ℤ) : ℚ :=
  mulPow (mulPow ((if neg then -1 else 1) * (digitsVal (intDs ++ fracDs) : ℚ))
    10 (-(fracDs.length : ℤ))) eb exp

/-- Split an optional leading `+`/`-` sign off a character list (as Go's
`scanSign` does): returns whether the sign was `-`, and the remainder. -/
def scanSign (l : List Char) : Bool × List Char :=
  match l with
  | [] => (false, [])
  | c :: rest =>
    if c = '+' then (false, rest)
    else if c = '-' then (true, rest)
    else (false, c :: rest)

/-- Scan the mantissa: leading digits, an optional radix point with further
digits, and the unconsumed remainder (as in `nat.scan` with `fracOk`). -/
def scanMantissa (l : List Char) : List Char × List Char × List Char :=
  let intDs := l.takeWhile isDigitChar
  let r1 := l.dropWhile isDigitChar
  match r1 with
  | [] => (intDs, [], [])
  | c :: rest =>
    if c = '.' then (intDs, rest.takeWhile isDigitChar, rest.dropWhile isDigitChar)
    else (intDs, [], c :: rest)

/-- Build the token for a fully scanned finite literal, applying the exponent
pre-check of `Float.scan`: with `m` the scanned mantissa digits read as an
integer, `scan` computes the intermediate binary exponent
`exp2 = bitlen m - #fracDigits + exp` (the radix point shifts by powers of 10
and `10**e == 5**e * 2**e`, so both contribute their power of two to `exp2`;
a binary `p` exponent contributes directly) and reports an
`exponent overflow` error unless `MinExp ≤ exp2 ≤ MaxExp` (int32 range),
before the power-of-five scaling is applied.  A zero mantissa is
special-cased to the value `0` before that check, as in `scan`. -/
def mkFinTok (neg : Bool) (intDs fracDs : List Char) (eb : ℕ) (exp : ℤ) : Option FloatTok :=
  let m : ℕ := digitsVal (intDs ++ fracDs)
  let exp2 : ℤ := ((natLog2 m m + 1 : ℕ) : ℤ) - (fracDs.length : ℤ) + exp
  if m = 0 then some (.fin 0)
  else if exp2 < minExpBF ∨ maxExpBF < exp2 then none
  else some (.fin (mantVal neg intDs fracDs eb exp))

/-- Scan the optional exponent after the mantissa and produce the token (as in
`scanExponent` followed by the end-of-string check of `Parse` and the
exponent pre-check of `scan`): an `e`/`E` (decimal) or `p`/`P` (binary)
marker, an optional sign, one or more digits that must fit in an `int64`,
and nothing afterwards. -/
def scanExpTail (neg : Bool) (intDs fracDs : List Char) : List Char → Option FloatTok
  | [] => mkFinTok neg intDs fracDs 10 0
  | c :: r3 =>
    if c = 'e' ∨ c = 'E' ∨ c = 'p' ∨ c = 'P' then
      let eb : ℕ := if c = 'p' ∨ c = 'P' then 2 else 10
      let se := scanSign r3
      let expDs := se.2.takeWhile isDigitChar
      if expDs.length = 0 then none
      else if (se.2.dropWhile isDigitChar).length ≠ 0 then none
      else if se.1 then
        if digitsVal expDs ≤ 2 ^ 63 then
          mkFinTok neg intDs fracDs eb (-(digitsVal expDs : ℤ))
        else none
      else
        if digitsVal expDs ≤ 2 ^ 63 - 1 then
          mkFinTok neg intDs fracDs eb (digitsVal expDs : ℤ)
        else none
    else none

/-- Model of the syntactic part of `big.Float.Parse(s, 10)`: the exact
infinity spellings `inf Inf +inf +Inf -inf -Inf`, or optional sign, decimal
digits with at most one radix point (at least one digit), and an optional
`e`/`E` (decimal) or `p`/`P` (binary) exponent whose digits must fit in an
`int64` (checked by `strconv.ParseInt(digits, 10, 64)` in `scanExponent`);
the whole string must be consumed, and the intermediate binary exponent of a
nonzero mantissa must pass the int32 pre-check of `scan` (`mkFinTok`), which
otherwise reports an `exponent overflow` error. -/
def floatScan (s : String) : Option FloatTok :=
  if s = "inf" ∨ s = "Inf" ∨ s = "+inf" ∨ s = "+Inf" then some (.inf false)
  else if s = "-inf" ∨ s = "-Inf" then some (.inf true)
  else
    let sl := scanSign s.data
    let m := scanMantissa sl.2
    if m.1.length + m.2.1.length = 0 then none
    else scanExpTail sl.1 m.1 m.2.1 m.2.2

/-- Model of `big.ParseFloat(value, 10, 256, big.ToNearestEven)`: syntactic
scan followed by rounding of the exact value to 256 bits. -/
def parseFloat256 (s : String) : Option BF :=
  (floatScan s).map fun t =>
    match t with
    | .inf b => BF.inf b
    | .fin q => round256 q

/-- Model of `bigFloat.MarshalJSON`, i.e. `big.Float.MarshalText`
(`Text('g', -1)`), at the level of the denoted numeric value: infinities
print as `+Inf` / `-Inf`; a finite value prints as a decimal text denoting
exactly the stored rational (Go prints the shortest digit string that
reparses to the stored value at the same precision; the model prints the
exact value in `<digits>e-<digits>` form, which likewise reparses to the
stored value). -/
def marshalBF : BF → String
  | .inf true => "-Inf"
  | .inf false => "+Inf"
  | .finite q =>
    if q = 0 then "0"
    else
      let j : ℕ := natLog2 q.den q.den
      let n : ℕ := q.num.natAbs * natPow 5 j
      String.mk ((if q.num < 0 then ['-'] else []) ++ natToChars n
        ++ 'e' :: '-' :: natToChars j)

/-! ## `strconv.ParseBool` -/

/-- Model of `strconv.ParseBool`: accepts exactly
`"1" "t" "T" "TRUE" "true" "True"` (true) and
`"0" "f" "F" "FALSE" "false" "False"` (false). -/
def strconvParseBool (s : String) : Option Bool :=
  if s = "1" ∨ s = "t" ∨ s = "T" ∨ s = "TRUE" ∨ s = "true" ∨ s = "True" then
    some true
  else if s = "0" ∨ s = "f" ∨ s = "F" ∨ s = "FALSE" ∨ s = "false" ∨ s = "False" then
    some false
  else
    none

/-! ## `encoding/json.Unmarshal` into `interface{}`

Model of `json.Unmarshal([]byte(value), &jsval)`: the RFC 8259 grammar with
Go's scanner rules (whitespace = space, tab, newline, carriage return;
numbers with no leading zeros and no leading `+`; strings with the standard
escapes, `\uXXXX` with surrogate-pair combination and `U+FFFD` for unpaired
surrogates; control characters below `0x20` must be escaped), and the whole
input must be one JSON value surrounded only by whitespace.  Two disclosed
divergences from Go: a number value is kept exact as a rational, whereas Go
converts each number (top-level or nested) to `float64` and makes
`Unmarshal` fail when the literal's magnitude overflows the `float64` range
(e.g. `[1e400]`), so the model accepts some documents Go rejects; and Go's
nesting-depth cap of 10000 is not modelled (the recursion fuel is the input
length).  No theorem below evaluates `jsonUnmarshal` on a divergent input.
Object fields decode into a Go map: a duplicate key overwrites the earlier
value. -/

mutual
inductive Json where
  | null : Json
  | bool (b : Bool) : Json
  | num (q : ℚ) : Json
  | str (s : List Char) : Json
  | arr (elems : JsonArr) : Json
  | obj (fields : JsonObj) : Json
  deriving DecidableEq
inductive JsonArr where
  | nil : JsonArr
  | cons (hd : Json) (tl : JsonArr) : JsonArr
  deriving DecidableEq
inductive JsonObj where
  | nil : JsonObj
  | cons (key : List Char) (val : Json) (tl : JsonObj) : JsonObj
  deriving DecidableEq
end

/-- Set `key` to `val` in a decoded object, overwriting an existing entry as
Go's `map[string]interface{}` assignment does. -/
def JsonObj.set (o : JsonObj) (key : List Char) (val : Json) : JsonObj :=
  match o with
  | .nil => .cons key val .nil
  | .cons k v tl => if k = key then .cons k val tl else .cons k v (tl.set key val)

/-- JSON whitespace per RFC 8259 / Go's scanner. -/
def isJsonWS (c : Char) : Bool :=
  c = ' ' ∨ c = '\t' ∨ c = '\n' ∨ c = '\r'

/-- Drop leading JSON whitespace. -/
def skipWS : List Char → List Char
  | [] => []
  | c :: cs => if isJsonWS c then skipWS cs else c :: cs

/-- Is `c` a hexadecimal digit? -/
def isHexChar (c : Char) : Bool :=
  ('0' ≤ c && c ≤ '9') || ('a' ≤ c && c ≤ 'f') || ('A' ≤ c && c ≤ 'F')

/-- Value of a hexadecimal digit character. -/
def hexVal (c : Char) : ℕ :=
  if '0' ≤ c && c ≤ '9' then c.toNat - 48
  else if 'a' ≤ c && c ≤ 'f' then c.toNat - 87
  else c.toNat - 55

/-- Parse the body of a JSON string after the opening quote, decoding escape
sequences as Go's `unquote` does; returns the decoded characters and the rest
of the input after the closing quote.  Each step consumes at least one input
character, so `fuel = length + 1` always suffices. -/
def parseJsonString : ℕ → List Char → Option (List Char × List Char)
  | 0, _ => none
  | fuel + 1, l =>
    match l with
    | [] => none
    | '"' :: rest => some ([], rest)
    | '\\' :: 'u' :: a :: b :: c :: d :: rest =>
      if isHexChar a && isHexChar b && isHexChar c && isHexChar d then
        let cp := ((hexVal a * 16 + hexVal b) * 16 + hexVal c) * 16 + hexVal d
        if 0xD800 ≤ cp ∧ cp ≤ 0xDBFF then
          match rest with
          | '\\' :: 'u' :: a2 :: b2 :: c2 :: d2 :: rest2 =>
            if isHexChar a2 && isHexChar b2 && isHexChar c2 && isHexChar d2 then
              let cp2 := ((hexVal a2 * 16 + hexVal b2) * 16 + hexVal c2) * 16 + hexVal d2
              if 0xDC00 ≤ cp2 ∧ cp2 ≤ 0xDFFF then
                (parseJsonString fuel rest2).map fun p =>
                  (Char.ofNat (0x10000 + (cp - 0xD800) * 0x400 + (cp2 - 0xDC00)) :: p.1, p.2)
              else
                (parseJsonString fuel rest).map fun p => (Char.ofNat 0xFFFD :: p.1, p.2)
            else none
          | _ => (parseJsonString fuel rest).map fun p => (Char.ofNat 0xFFFD :: p.1, p.2)
        else if 0xDC00 ≤ cp ∧ cp ≤ 0xDFFF then
          (parseJsonString fuel rest).map fun p => (Char.ofNat 0xFFFD :: p.1, p.2)
        else
          (parseJsonString fuel rest).map fun p => (Char.ofNat cp :: p.1, p.2)
      else none
    | '\\' :: e :: rest =>
      let dec : Option Char :=
        if e = '"' then some '"'
        else if e = '\\' then some '\\'
        else if e = '/' then some '/'
        else if e = 'b' then some (Char.ofNat 8)
        else if e = 'f' then some (Char.ofNat 12)
        else if e = 'n' then some '\n'
        else if e = 'r' then some '\r'
        else if e = 't' then some '\t'
        else none
      match dec with
      | none => none
      | some ch => (parseJsonString fuel rest).map fun p => (ch :: p.1, p.2)
    | c :: rest =>
      if c.toNat < 0x20 then none
      else (parseJsonString fuel rest).map fun p => (c :: p.1, p.2)

/-- Parse a JSON number token starting at the current position (RFC 8259:
`-? int frac? exp?` with `int = 0 | [1-9][0-9]*`); returns its exact rational
value and the rest of the input. -/
def parseJsonNumber (l : List Char) : Option (ℚ × List Char) :=
  let sn : Bool × List Char :=
    match l with
    | '-' :: rest => (true, rest)
    | r => (false, r)
  let ip : Option (List Char × List Char) :=
    match sn.2 with
    | '0' :: rest => some (['0'], rest)
    | c :: rest =>
      if isDigitChar c then some ((c :: rest).span isDigitChar) else none
    | [] => none
  match ip with
  | none => none
  | some (intDs, r1) =>
    let fp : Option (List Char × List Char) :=
      match r1 with
      | '.' :: c :: rest =>
        if isDigitChar c then some ((c :: rest).span isDigitChar) else none
      | '.' :: [] => none
      | r => some ([], r)
    match fp with
    | none => none
    | some (fracDs, r2) =>
      let ep : Option (ℤ × List Char) :=
        match r2 with
        | 'e' :: rest | 'E' :: rest =>
          let se : Bool × List Char :=
            match rest with
            | '+' :: r => (false, r)
            | '-' :: r => (true, r)
            | r => (false, r)
          match se.2 with
          | c :: r =>
            if isDigitChar c then
              let p := (c :: r).span isDigitChar
              some ((if se.1 then -(digitsVal p.1 : ℤ) else (digitsVal p.1 : ℤ)), p.2)
            else none
          | [] => none
        | r => some (0, r)
      match ep with
      | none => none
      | some (ex, r3) =>
        some (mulPow (mulPow ((if sn.1 then -1 else 1) * (digitsVal (intDs ++ fracDs) : ℚ))
          10 (-(fracDs.length : ℤ))) 10 ex, r3)

mutual
/-- Parse one JSON value (after skipping leading whitespace); `fuel` bounds
the nesting depth and is decremented for each nested value. -/
def parseJsonVal : ℕ → List Char → Option (Json × List Char)
  | 0, _ => none
  | fuel + 1, l =>
    match skipWS l with
    | 'n' :: 'u' :: 'l' :: 'l' :: rest => some (.null, rest)
    | 't' :: 'r' :: 'u' :: 'e' :: rest => some (.bool true, rest)
    | 'f' :: 'a' :: 'l' :: 's' :: 'e' :: rest => some (.bool false, rest)
    | '"' :: rest => (parseJsonString (rest.length + 1) rest).map fun p => (.str p.1, p.2)
    | '[' :: rest =>
      (match skipWS rest with
       | ']' :: rest2 => some (.arr .nil, rest2)
       | l2 => (parseJsonElems fuel l2).map fun p => (.arr p.1, p.2))
    | '{' :: rest =>
      (match skipWS rest with
       | '}' :: rest2 => some (.obj .nil, rest2)
       | l2 => (parseJsonMembers fuel .nil l2).map fun p => (.obj p.1, p.2))
    | l2 => (parseJsonNumber l2).map fun p => (.num p.1, p.2)

/-- Parse the elements of a nonempty JSON array up to and including `]`. -/
def parseJsonElems : ℕ → List Char → Option (JsonArr × List Char)
  | 0, _ => none
  | fuel + 1, l =>
    match parseJsonVal fuel l with
    | none => none
    | some (v, rest) =>
      match skipWS rest with
      | ',' :: rest2 =>
        (parseJsonElems fuel rest2).map fun p => (.cons v p.1, p.2)
      | ']' :: rest2 => some (.cons v .nil, rest2)
      | _ => none

/-- Parse the members of a nonempty JSON object up to and including `}`,
accumulating fields with map-assignment (duplicate keys overwrite). -/
def parseJsonMembers : ℕ → JsonObj → List Char → Option (JsonObj × List Char)
  | 0, _, _ => none
  | fuel + 1, acc, l =>
    match skipWS l with
    | '"' :: rest =>
      (match parseJsonString (rest.length + 1) rest with
       | none => none
       | some (key, rest2) =>
         match skipWS rest2 with
         | ':' :: rest3 =>
           (match parseJsonVal fuel rest3 with
            | none => none
            | some (v, rest4) =>
              match skipWS rest4 with
              | ',' :: rest5 => parseJsonMembers fuel (acc.set key v) rest5
              | '}' :: rest5 => some (acc.set key v, rest5)
              | _ => none)
         | _ => none)
    | _ => none
end

/-- Model of `json.Unmarshal([]byte(value), &jsval)`: exactly one JSON value,
surrounded only by whitespace. -/
def jsonUnmarshal (s : String) : Option Json :=
  match parseJsonVal (s.length + 1) s.data with
  | none => none
  | some (v, rest) => if skipWS rest = [] then some v else none

/-- A whole string read as one RFC 8259 number token (the number grammar of
`encoding/json`, exact rational semantics): the standard JSON numeric
reading of a serialized numeric text. -/
def jsonNumValue (s : String) : Option ℚ :=
  match parseJsonNumber s.data with
  | some (q, []) => some q
  | _ => none

/-! ## The typed value engine: `typedValues.Add` -/

/-- The tagged union of stored representations: `*big.Int`, `*bigFloat`,
`bool`, a decoded JSON value, or the plain string fallback. -/
inductive TypedValue where
  | vint (n : ℤ) : TypedValue
  | vfloat (f : BF) : TypedValue
  | vbool (b : Bool) : TypedValue
  | vjson (j : Json) : TypedValue
  | vstr (s : String) : TypedValue
  deriving DecidableEq

/-- The classification chain in the body of `typedValues.Add`: big-integer
parse, else 256-bit decimal parse, else `strconv.ParseBool`, else
`json.Unmarshal`, else the string itself. -/
def coercion (value : String) : TypedValue :=
  match intSetString value with
  | some n => .vint n
  | none =>
    match parseFloat256 value with
    | some f => .vfloat f
    | none =>
      match strconvParseBool value with
      | some b => .vbool b
      | none =>
        match jsonUnmarshal value with
        | some j => .vjson j
        | none => .vstr value

/-- The collection `type typedValues map[string][]interface{}`: a Go map read
at a missing key yields the empty slice, so the collection is a total map
from keys to (possibly empty) ordered value lists. -/
def typedValues : Type := String → List TypedValue

/-- The empty collection (a fresh `typedValues{}`). -/
def typedValues.empty : typedValues := fun _ => []

/-- Model of `func (v typedValues) Add(key, value string)`:
`v[key] = append(v[key], jsval)` with `jsval` the classified value. -/
def typedValues.Add (v : typedValues) (key value : String) : typedValues :=
  fun k => if k = key then v key ++ [coercion value] else v k

/-! ## Arithmetic helper lemmas -/

theorem natPowFuel_eq (b : ℕ) : ∀ fuel n, n ≤ fuel → natPowFuel fuel b n = b ^ n := by
  intro fuel
  induction fuel with
  | zero =>
    intro n hn
    have : n = 0 := Nat.le_zero.mp hn
    simp [this, natPowFuel]
  | succ fuel ih =>
    intro n hn
    by_cases h0 : n = 0
    · simp [h0, natPowFuel]
    · have hg : n / 2 ≤ fuel := by omega
      have hrec := ih _ hg
      rw [natPowFuel, if_neg h0]
      show (if n % 2 = 0 then natPowFuel fuel b (n / 2) * natPowFuel fuel b (n / 2)
            else natPowFuel fuel b (n / 2) * natPowFuel fuel b (n / 2) * b) = b ^ n
      rw [hrec]
      by_cases h2 : n % 2 = 0
      · rw [if_pos h2, ← pow_add]
        congr 1
        omega
      · rw [if_neg h2, ← pow_add, ← pow_succ]
        congr 1
        omega

theorem natPow_eq (b n : ℕ) : natPow b n = b ^ n :=
  natPowFuel_eq b n n le_rfl

theorem mulPow_eq_zpow (q : ℚ) (b : ℕ) (e : ℤ) : mulPow q b e = q * (b : ℚ) ^ e := by
  unfold mulPow
  by_cases h : 0 ≤ e
  · rw [if_pos h, natPow_eq]
    push_cast
    rw [← zpow_natCast (b : ℚ), Int.toNat_of_nonneg h]
  · rw [if_neg h, natPow_eq]
    push_cast
    rw [div_eq_mul_inv, ← zpow_natCast (b : ℚ), Int.toNat_of_nonneg (by omega : (0:ℤ) ≤ -e),
      ← zpow_neg, neg_neg]

theorem mulPow_two_eq (q : ℚ) (e : ℤ) : mulPow q 2 e = q * (2 : ℚ) ^ e := by
  rw [mulPow_eq_zpow]
  norm_num

theorem mulPow_ten_eq (q : ℚ) (e : ℤ) : mulPow q 10 e = q * (10 : ℚ) ^ e := by
  rw [mulPow_eq_zpow]
  norm_num

theorem roundNearestEven_intCast (n : ℤ) : roundNearestEven (n : ℚ) = n := by
  unfold roundNearestEven
  rw [Int.floor_intCast]
  norm_num

theorem floor_le_roundNearestEven (x : ℚ) :
    ⌊x⌋ ≤ roundNearestEven x ∧ roundNearestEven x ≤ ⌊x⌋ + 1 := by
  simp only [roundNearestEven]
  split_ifs <;> omega

theorem natLog2_spec : ∀ fuel n, 1 ≤ n → n ≤ fuel →
    2 ^ natLog2 fuel n ≤ n ∧ n < 2 ^ (natLog2 fuel n + 1) := by
  intro fuel
  induction fuel with
  | zero => intro n h1 h2; omega
  | succ fuel ih =>
    intro n h1 h2
    rw [natLog2]
    by_cases hn : n ≤ 1
    · rw [if_pos hn]
      have : n = 1 := by omega
      simp [this]
    · rw [if_neg hn]
      have h12 : 1 ≤ n / 2 := by omega
      have hf : n / 2 ≤ fuel := by omega
      obtain ⟨hl, hr⟩ := ih (n / 2) h12 hf
      have e1 : 2 ^ (natLog2 fuel (n / 2) + 1) = 2 * 2 ^ natLog2 fuel (n / 2) := by
        rw [pow_succ]; ring
      have e2 : 2 ^ (natLog2 fuel (n / 2) + 1 + 1) = 2 * 2 ^ (natLog2 fuel (n / 2) + 1) := by
        rw [pow_succ]; ring
      omega

theorem natClog2_one (fuel : ℕ) : natClog2 fuel 1 = 0 := by
  cases fuel <;> simp [natClog2]

theorem natClog2_spec : ∀ fuel m, 2 ≤ m → m ≤ fuel →
    ∃ t, natClog2 fuel m = t + 1 ∧ 2 ^ t < m ∧ m ≤ 2 ^ (t + 1) := by
  intro fuel
  induction fuel with
  | zero => intro m h1 h2; omega
  | succ fuel ih =>
    intro m h1 h2
    rw [natClog2]
    have hm : ¬ m ≤ 1 := by omega
    rw [if_neg hm]
    by_cases hsmall : m = 2
    · subst hsmall
      refine ⟨0, ?_, by norm_num, by norm_num⟩
      have h3 : (2 + 1) / 2 = 1 := by norm_num
      rw [h3, natClog2_one]
    · have h1' : 2 ≤ (m + 1) / 2 := by omega
      have h2' : (m + 1) / 2 ≤ fuel := by omega
      obtain ⟨t, ht, hlo, hhi⟩ := ih ((m + 1) / 2) h1' h2'
      refine ⟨t + 1, by rw [ht], ?_, ?_⟩
      · have e1 : 2 ^ (t + 1) = 2 * 2 ^ t := by rw [pow_succ]; ring
        omega
      · have e1 : 2 ^ (t + 1 + 1) = 2 * 2 ^ (t + 1) := by rw [pow_succ]; ring
        omega

theorem ratLog2_spec (q : ℚ) (hq : 0 < q) :
    (2 : ℚ) ^ ratLog2 q ≤ q ∧ q < (2 : ℚ) ^ (ratLog2 q + 1) := by
  unfold ratLog2
  by_cases h1 : 1 ≤ q
  · rw [if_pos h1]
    have hfl : 1 ≤ ⌊q⌋₊ := Nat.le_floor (by exact_mod_cast h1)
    obtain ⟨hl, hr⟩ := natLog2_spec ⌊q⌋₊ ⌊q⌋₊ hfl le_rfl
    constructor
    · have c1 : (2 : ℚ) ^ ((natLog2 ⌊q⌋₊ ⌊q⌋₊ : ℤ)) = ((2 ^ natLog2 ⌊q⌋₊ ⌊q⌋₊ : ℕ) : ℚ) := by
        rw [zpow_natCast]; push_cast; ring
      rw [c1]
      calc ((2 ^ natLog2 ⌊q⌋₊ ⌊q⌋₊ : ℕ) : ℚ) ≤ (⌊q⌋₊ : ℚ) := by exact_mod_cast hl
        _ ≤ q := Nat.floor_le hq.le
    · have c1 : (2 : ℚ) ^ ((natLog2 ⌊q⌋₊ ⌊q⌋₊ : ℤ) + 1) =
          ((2 ^ (natLog2 ⌊q⌋₊ ⌊q⌋₊ + 1) : ℕ) : ℚ) := by
        push_cast [← zpow_natCast]
        norm_num
      rw [c1]
      calc q < (⌊q⌋₊ : ℚ) + 1 := Nat.lt_floor_add_one q
        _ ≤ ((2 ^ (natLog2 ⌊q⌋₊ ⌊q⌋₊ + 1) : ℕ) : ℚ) := by exact_mod_cast hr
  · rw [if_neg h1]
    have hq1 : q < 1 := lt_of_not_le h1
    have hinv : 1 < q⁻¹ := one_lt_inv_iff₀.mpr ⟨hq, hq1⟩
    have hm2 : 2 ≤ ⌈q⁻¹⌉₊ := by
      have : 1 < ⌈q⁻¹⌉₊ := Nat.lt_ceil.mpr (by exact_mod_cast hinv)
      omega
    obtain ⟨t, ht, hlo, hhi⟩ := natClog2_spec _ _ hm2 le_rfl
    rw [ht]
    have hpowpos : (0 : ℚ) < ((2 ^ (t + 1) : ℕ) : ℚ) := by positivity
    constructor
    · have ha : q⁻¹ ≤ ((2 ^ (t + 1) : ℕ) : ℚ) :=
        le_trans (Nat.le_ceil _) (by exact_mod_cast hhi)
      have hb := inv_le_of_inv_le₀ hq ha
      have c1 : (2 : ℚ) ^ (-((t + 1 : ℕ) : ℤ)) = ((2 ^ (t + 1) : ℕ) : ℚ)⁻¹ := by
        rw [zpow_neg, zpow_natCast]
        push_cast
        ring_nf
      rw [c1]
      exact hb
    · have hceil : ((⌈q⁻¹⌉₊ : ℚ)) < q⁻¹ + 1 := Nat.ceil_lt_add_one (by positivity)
      have hlt : ((2 ^ t : ℕ) : ℚ) < q⁻¹ := by
        have h5 : (2 ^ t : ℕ) ≤ ⌈q⁻¹⌉₊ - 1 := by omega
        have h6 : ((2 ^ t : ℕ) : ℚ) ≤ ((⌈q⁻¹⌉₊ - 1 : ℕ) : ℚ) := by exact_mod_cast h5
        have h7 : ((⌈q⁻¹⌉₊ - 1 : ℕ) : ℚ) = (⌈q⁻¹⌉₊ : ℚ) - 1 := by
          have : 1 ≤ ⌈q⁻¹⌉₊ := by omega
          push_cast [Nat.cast_sub this]
          ring
        linarith
      have hb : q < ((2 ^ t : ℕ) : ℚ)⁻¹ :=
        (lt_inv_comm₀ hq (by positivity)).mpr hlt
      have c1 : (2 : ℚ) ^ (-((t + 1 : ℕ) : ℤ) + 1) = ((2 ^ t : ℕ) : ℚ)⁻¹ := by
        have : (-((t + 1 : ℕ) : ℤ) + 1) = -(t : ℤ) := by push_cast; ring
        rw [this, zpow_neg, zpow_natCast]
        push_cast
        ring_nf
      rw [c1]
      exact hb

/-- `ratLog2` is the unique integer with `2 ^ (e-1) ≤ q < 2 ^ e`. -/
theorem ratLog2_eq (q : ℚ) (hq : 0 < q) (e : ℤ)
    (h1 : (2 : ℚ) ^ (e - 1) ≤ q) (h2 : q < (2 : ℚ) ^ e) : ratLog2 q = e - 1 := by
  obtain ⟨hl, hr⟩ := ratLog2_spec q hq
  by_contra hne
  rcases lt_or_gt_of_ne hne with hlt | hgt
  · have : (2 : ℚ) ^ (ratLog2 q + 1) ≤ 2 ^ (e - 1) :=
      zpow_le_zpow_right₀ one_le_two (by omega)
    linarith
  · have : (2 : ℚ) ^ e ≤ 2 ^ ratLog2 q :=
      zpow_le_zpow_right₀ one_le_two (by omega)
    linarith

/-! ## Decimal digit-string lemmas -/

theorem digitVal_digitChar {d : ℕ} (hd : d < 10) : digitVal (digitChar d) = d := by
  interval_cases d <;> decide

theorem isDigitChar_digitChar {d : ℕ} (hd : d < 10) : isDigitChar (digitChar d) = true := by
  interval_cases d <;> decide

theorem ne_of_isDigitChar {a b : Char} (h1 : isDigitChar a = true)
    (h2 : isDigitChar b = false) : a ≠ b := by
  intro h
  rw [h, h2] at h1
  cases h1

/-- Little-endian value of a digit list. -/
def ofDigitsLE : List ℕ → ℕ
  | [] => 0
  | d :: L => d + 10 * ofDigitsLE L

theorem digitsRev_spec : ∀ fuel n, n ≤ fuel → ofDigitsLE (digitsRev fuel n) = n := by
  intro fuel
  induction fuel with
  | zero =>
    intro n hn
    have : n = 0 := by omega
    simp [this, digitsRev, ofDigitsLE]
  | succ fuel ih =>
    intro n hn
    match n with
    | 0 => simp [digitsRev, ofDigitsLE]
    | k + 1 =>
      rw [show digitsRev (fuel + 1) (k + 1) = (k + 1) % 10 :: digitsRev fuel ((k + 1) / 10)
        from rfl]
      rw [ofDigitsLE]
      rw [ih ((k + 1) / 10) (by omega)]
      omega

theorem digitsRev_lt : ∀ fuel n, ∀ d ∈ digitsRev fuel n, d < 10 := by
  intro fuel
  induction fuel with
  | zero => intro n d hd; simp [digitsRev] at hd
  | succ fuel ih =>
    intro n d hd
    match n with
    | 0 => simp [digitsRev] at hd
    | k + 1 =>
      rw [show digitsRev (fuel + 1) (k + 1) = (k + 1) % 10 :: digitsRev fuel ((k + 1) / 10)
        from rfl] at hd
      rcases List.mem_cons.mp hd with h | h
      · omega
      · exact ih _ _ h

theorem foldl_digitChars (L : List ℕ) (hL : ∀ d ∈ L, d < 10) : ∀ a,
    List.foldl (fun a c => a * 10 + digitVal c) a (L.map digitChar) =
      List.foldl (fun a d => a * 10 + d) a L := by
  induction L with
  | nil => intro a; simp
  | cons d L ih =>
    intro a
    simp only [List.map_cons, List.foldl_cons]
    rw [digitVal_digitChar (hL d (List.mem_cons_self d L))]
    exact ih (fun x hx => hL x (List.mem_cons_of_mem d hx)) _

theorem foldl_reverse_ofDigitsLE (L : List ℕ) : ∀ a,
    List.foldl (fun a d => a * 10 + d) a L.reverse = a * 10 ^ L.length + ofDigitsLE L := by
  induction L with
  | nil => intro a; simp [ofDigitsLE]
  | cons d L ih =>
    intro a
    rw [List.reverse_cons, List.foldl_append, ih a]
    simp only [List.foldl_cons, List.foldl_nil, ofDigitsLE, List.length_cons, pow_succ]
    ring

theorem digitsVal_natToChars (n : ℕ) : digitsVal (natToChars n) = n := by
  unfold natToChars
  by_cases h : n = 0
  · simp [h]
    decide
  · rw [if_neg h]
    unfold digitsVal
    rw [foldl_digitChars _ (fun d hd => digitsRev_lt n n d (List.mem_reverse.mp hd)) 0]
    rw [foldl_reverse_ofDigitsLE]
    rw [digitsRev_spec n n le_rfl]
    ring

theorem natToChars_digit (n : ℕ) : ∀ c ∈ natToChars n, isDigitChar c = true := by
  intro c hc
  unfold natToChars at hc
  by_cases h : n = 0
  · rw [if_pos h] at hc
    simp at hc
    subst hc
    decide
  · rw [if_neg h] at hc
    obtain ⟨d, hd, rfl⟩ := List.mem_map.mp hc
    exact isDigitChar_digitChar (digitsRev_lt n n d (List.mem_reverse.mp hd))

theorem natToChars_ne_nil (n : ℕ) : natToChars n ≠ [] := by
  unfold natToChars
  by_cases h : n = 0
  · simp [h]
  · rw [if_neg h]
    intro hcon
    have h1 := List.map_eq_nil_iff.mp hcon
    have h2 := List.reverse_eq_nil_iff.mp h1
    have h3 := digitsRev_spec n n le_rfl
    rw [h2] at h3
    simp [ofDigitsLE] at h3
    exact h h3.symm

theorem digitsRev_zero (fuel : ℕ) : digitsRev fuel 0 = [] := by
  cases fuel <;> rfl

theorem digitsRev_reverse_head : ∀ fuel n, 1 ≤ n → n ≤ fuel →
    ∃ d L, (digitsRev fuel n).reverse = d :: L ∧ 1 ≤ d ∧ d < 10 := by
  intro fuel
  induction fuel with
  | zero => intro n h1 h2; omega
  | succ fuel ih =>
    intro n h1 h2
    match n, h1 with
    | k + 1, _ =>
      rw [show digitsRev (fuel + 1) (k + 1) = (k + 1) % 10 :: digitsRev fuel ((k + 1) / 10)
        from rfl]
      rw [List.reverse_cons]
      by_cases hk : (k + 1) / 10 = 0
      · rw [hk, digitsRev_zero]
        exact ⟨(k + 1) % 10, [], by simp, by omega, by omega⟩
      · obtain ⟨d, L, hL, hd1, hd9⟩ := ih ((k + 1) / 10) (by omega) (by omega)
        rw [hL]
        exact ⟨d, L ++ [(k + 1) % 10], by simp, hd1, hd9⟩

/-- The decimal text of a positive natural starts with a nonzero digit. -/
theorem natToChars_head (n : ℕ) (hn : 1 ≤ n) :
    ∃ c cs, natToChars n = c :: cs ∧ isDigitChar c = true ∧ c ≠ '0' := by
  unfold natToChars
  rw [if_neg (by omega : ¬ n = 0)]
  obtain ⟨d, L, hL, hd1, hd9⟩ := digitsRev_reverse_head n n hn le_rfl
  rw [hL]
  refine ⟨digitChar d, L.map digitChar, by simp, isDigitChar_digitChar hd9, ?_⟩
  interval_cases d <;> decide

theorem takeWhile_digits_append (ds rest : List Char)
    (h1 : ∀ c ∈ ds, isDigitChar c = true)
    (h2 : ∀ c cs, rest = c :: cs → isDigitChar c = false) :
    (ds ++ rest).takeWhile isDigitChar = ds ∧
      (ds ++ rest).dropWhile isDigitChar = rest := by
  induction ds with
  | nil =>
    match rest with
    | [] => simp
    | c :: cs => simp [List.takeWhile_cons, List.dropWhile_cons, h2 c cs rfl]
  | cons d ds ih =>
    have hd := h1 d (List.mem_cons_self d ds)
    have ⟨iht, ihd⟩ := ih (fun x hx => h1 x (List.mem_cons_of_mem d hx))
    simp [List.takeWhile_cons, List.dropWhile_cons, hd, iht, ihd]

theorem parseAllDigits_go_eq (l : List Char) (h1 : ∀ c ∈ l, isDigitChar c = true) : ∀ a,
    parseAllDigits.go a l = some (List.foldl (fun a c => a * 10 + digitVal c) a l) := by
  induction l with
  | nil => intro a; rfl
  | cons c cs ih =>
    intro a
    rw [parseAllDigits.go, if_pos (h1 c (List.mem_cons_self c cs))]
    rw [ih (fun x hx => h1 x (List.mem_cons_of_mem c hx))]
    rfl

theorem parseAllDigits_eq (l : List Char) (h0 : l ≠ [])
    (h1 : ∀ c ∈ l, isDigitChar c = true) :
    parseAllDigits l = some (digitsVal l) := by
  unfold parseAllDigits
  match l with
  | [] => exact absurd rfl h0
  | c :: cs => exact parseAllDigits_go_eq (c :: cs) h1 0

/-! ## Rounding lemmas: round-trip of 256-bit values -/

theorem ite_neg_eq_abs (q : ℚ) : (if q < 0 then -q else q) = |q| := by
  by_cases h : q < 0
  · rw [if_pos h, abs_of_neg h]
  · rw [if_neg h, abs_of_nonneg (not_lt.mp h)]

theorem sign_mul_abs (q : ℚ) : (if q < 0 then (-1 : ℚ) else 1) * |q| = q := by
  by_cases h : q < 0
  · rw [if_pos h, abs_of_neg h]; ring
  · rw [if_neg h, abs_of_nonneg (not_lt.mp h)]; ring

/-- If `q` is a nonzero dyadic rational with a significand of fewer than 256
bits and an in-range binary exponent, then rounding it to 256 bits returns it
unchanged. -/
theorem round256_eq_self (q : ℚ) (m k : ℤ) (hq : q ≠ 0) (hqe : q = (m : ℚ) * 2 ^ k)
    (hm : |m| < 2 ^ 256) (hlo : minExpBF ≤ ratLog2 |q| + 1)
    (hhi : ratLog2 |q| + 1 ≤ maxExpBF) :
    round256 q = .finite q := by
  have hqpos : 0 < |q| := abs_pos.mpr hq
  obtain ⟨hl, hr⟩ := ratLog2_spec |q| hqpos
  set e : ℤ := ratLog2 |q| + 1 with he
  have hle : (2 : ℚ) ^ (e - 1) ≤ |q| := by
    rw [he]
    simpa using hl
  have hlt : |q| < (2 : ℚ) ^ e := by
    rw [he]
    simpa using hr
  have h2k : (0 : ℚ) < 2 ^ k := zpow_pos two_pos k
  have habsq : |q| = ((|m| : ℤ) : ℚ) * 2 ^ k := by
    rw [hqe, abs_mul, abs_of_pos h2k, Int.cast_abs]
  have hpow256 : ((2 : ℤ) ^ (256 : ℕ) : ℚ) = (2 : ℚ) ^ (256 : ℤ) := by
    push_cast [zpow_natCast]
    norm_num
  -- the scaling exponent is nonnegative
  have hkb : 0 ≤ k + 256 - e := by
    by_contra hcon
    have h2 : |q| < (2 : ℚ) ^ (k + 256) := by
      rw [habsq]
      have hmq : ((|m| : ℤ) : ℚ) < (2 : ℚ) ^ (256 : ℤ) := by
        rw [← hpow256]
        exact_mod_cast hm
      calc ((|m| : ℤ) : ℚ) * 2 ^ k < (2 : ℚ) ^ (256 : ℤ) * 2 ^ k :=
            mul_lt_mul_of_pos_right hmq h2k
        _ = 2 ^ (k + 256) := by
            rw [← zpow_add₀ (two_ne_zero : (2 : ℚ) ≠ 0)]
            ring_nf
    have h4 : (2 : ℚ) ^ (k + 256) ≤ 2 ^ (e - 1) :=
      zpow_le_zpow_right₀ one_le_two (by omega)
    linarith
  set j : ℕ := (k + 256 - e).toNat with hj
  have hjk : (j : ℤ) = k + 256 - e := Int.toNat_of_nonneg hkb
  -- the scaled mantissa is an integer
  have hscaled : mulPow |q| 2 (256 - e) = ((|m| * 2 ^ j : ℤ) : ℚ) := by
    rw [mulPow_two_eq, habsq, mul_assoc, ← zpow_add₀ (two_ne_zero : (2 : ℚ) ≠ 0)]
    rw [show k + (256 - e) = ((j : ℤ)) by omega]
    rw [zpow_natCast]
    push_cast
    ring
  have hround : roundNearestEven (mulPow |q| 2 (256 - e)) = |m| * 2 ^ j := by
    rw [hscaled, roundNearestEven_intCast]
  -- integer bounds on the scaled mantissa
  have hsc_hi : |m| * 2 ^ j < (2 : ℤ) ^ (256 : ℕ) := by
    have h1 : ((|m| * 2 ^ j : ℤ) : ℚ) < (2 : ℚ) ^ (256 : ℤ) := by
      rw [← hscaled, mulPow_two_eq]
      calc |q| * (2 : ℚ) ^ (256 - e) < (2 : ℚ) ^ e * 2 ^ (256 - e) :=
            mul_lt_mul_of_pos_right hlt (zpow_pos two_pos _)
        _ = (2 : ℚ) ^ (256 : ℤ) := by
            rw [← zpow_add₀ (two_ne_zero : (2 : ℚ) ≠ 0)]
            ring_nf
    rw [← hpow256] at h1
    exact_mod_cast h1
  have hsc_lo : (2 : ℤ) ^ (255 : ℕ) ≤ |m| * 2 ^ j := by
    have hpow255 : ((2 : ℤ) ^ (255 : ℕ) : ℚ) = (2 : ℚ) ^ (255 : ℤ) := by
      push_cast [zpow_natCast]
      norm_num
    have h1 : (2 : ℚ) ^ (255 : ℤ) ≤ ((|m| * 2 ^ j : ℤ) : ℚ) := by
      rw [← hscaled, mulPow_two_eq]
      calc (2 : ℚ) ^ (255 : ℤ) = 2 ^ (e - 1) * 2 ^ (256 - e) := by
            rw [← zpow_add₀ (two_ne_zero : (2 : ℚ) ≠ 0)]
            ring_nf
        _ ≤ |q| * 2 ^ (256 - e) :=
            mul_le_mul_of_nonneg_right hle (zpow_pos two_pos _).le
    rw [← hpow255] at h1
    exact_mod_cast h1
  have hcast : ((|m| * 2 ^ j : ℤ) : ℚ) = |q| * (2 : ℚ) ^ (256 - e) := by
    rw [← hscaled, mulPow_two_eq]
  -- assemble
  simp only [round256, if_neg hq, ite_neg_eq_abs, ← he, hround, natPow_eq]
  rw [if_neg (show ¬ |m| * 2 ^ j = ((2 ^ 256 : ℕ) : ℤ) by push_cast; omega)]
  dsimp only
  rw [if_neg (show ¬ maxExpBF < e by omega), if_neg (show ¬ e < minExpBF by omega)]
  congr 1
  rw [mulPow_two_eq, hcast]
  calc (if q < 0 then (-1 : ℚ) else 1) * (|q| * (2 : ℚ) ^ (256 - e)) * 2 ^ (e - 256)
      = (if q < 0 then (-1 : ℚ) else 1) * |q| * ((2 : ℚ) ^ (256 - e) * 2 ^ (e - 256)) := by
        ring
    _ = (if q < 0 then (-1 : ℚ) else 1) * |q| * 1 := by
        rw [← zpow_add₀ (two_ne_zero : (2 : ℚ) ≠ 0),
          show (256 : ℤ) - e + (e - 256) = 0 by ring, zpow_zero]
    _ = q := by rw [mul_one, sign_mul_abs]

/-- Every finite value produced by `round256` is zero or has the form
`±mq * 2^(e-256)` with a 256-bit mantissa `mq` and an in-range exponent. -/
theorem round256_finite_abs (x q : ℚ) (h : round256 x = .finite q) :
    q = 0 ∨ ∃ mq e : ℤ, (2 : ℤ) ^ (255 : ℕ) ≤ mq ∧ mq < (2 : ℤ) ^ (256 : ℕ) ∧
      minExpBF ≤ e ∧ e ≤ maxExpBF ∧ |q| = (mq : ℚ) * 2 ^ (e - 256) := by
  by_cases hx : x = 0
  · left
    rw [round256, if_pos hx, BF.finite.injEq] at h
    exact h.symm
  · have hxpos : 0 < |x| := abs_pos.mpr hx
    obtain ⟨hl, hr⟩ := ratLog2_spec |x| hxpos
    set e0 : ℤ := ratLog2 |x| + 1 with he0
    have hle : (2 : ℚ) ^ (e0 - 1) ≤ |x| := by rw [he0]; simpa using hl
    have hlt : |x| < (2 : ℚ) ^ e0 := by rw [he0]; simpa using hr
    set s : ℚ := mulPow |x| 2 (256 - e0) with hs
    have hpow255 : ((((2 : ℤ) ^ (255 : ℕ)) : ℤ) : ℚ) = (2 : ℚ) ^ (255 : ℤ) := by
      push_cast
      norm_num [← zpow_natCast]
    have hpow256 : ((((2 : ℤ) ^ (256 : ℕ)) : ℤ) : ℚ) = (2 : ℚ) ^ (256 : ℤ) := by
      push_cast
      norm_num [← zpow_natCast]
    have hs_lo : (2 : ℚ) ^ (255 : ℤ) ≤ s := by
      rw [hs, mulPow_two_eq]
      calc (2 : ℚ) ^ (255 : ℤ) = 2 ^ (e0 - 1) * 2 ^ (256 - e0) := by
            rw [← zpow_add₀ (two_ne_zero : (2 : ℚ) ≠ 0)]
            ring_nf
        _ ≤ |x| * 2 ^ (256 - e0) :=
            mul_le_mul_of_nonneg_right hle (zpow_pos two_pos _).le
    have hs_hi : s < (2 : ℚ) ^ (256 : ℤ) := by
      rw [hs, mulPow_two_eq]
      calc |x| * (2 : ℚ) ^ (256 - e0) < (2 : ℚ) ^ e0 * 2 ^ (256 - e0) :=
            mul_lt_mul_of_pos_right hlt (zpow_pos two_pos _)
        _ = (2 : ℚ) ^ (256 : ℤ) := by
            rw [← zpow_add₀ (two_ne_zero : (2 : ℚ) ≠ 0)]
            ring_nf
    set m0 : ℤ := roundNearestEven s with hm0
    obtain ⟨hfb1, hfb2⟩ := floor_le_roundNearestEven s
    have hm0_lo : (2 : ℤ) ^ (255 : ℕ) ≤ m0 := by
      refine le_trans ?_ hfb1
      rw [Int.le_floor, hpow255]
      exact hs_lo
    have hm0_hi : m0 ≤ (2 : ℤ) ^ (256 : ℕ) := by
      refine le_trans hfb2 ?_
      have : ⌊s⌋ < (2 : ℤ) ^ (256 : ℕ) := by
        rw [Int.floor_lt, hpow256]
        exact hs_hi
      omega
    have habs_sgn : ∀ (M : ℤ) (ee : ℤ), 0 < M →
        |mulPow ((if x < 0 then (-1 : ℚ) else 1) * (M : ℚ)) 2 ee| = (M : ℚ) * 2 ^ ee := by
      intro M ee hM
      rw [mulPow_two_eq, abs_mul, abs_mul]
      have h1 : |(if x < 0 then (-1 : ℚ) else 1)| = 1 := by
        by_cases hxn : x < 0 <;> simp [hxn]
      have h2 : |(M : ℚ)| = (M : ℚ) := abs_of_pos (by exact_mod_cast hM)
      have h3 : |(2 : ℚ) ^ ee| = (2 : ℚ) ^ ee := abs_of_pos (zpow_pos two_pos _)
      rw [h1, h2, h3, one_mul]
    simp only [round256, if_neg hx, ite_neg_eq_abs, ← he0, ← hs, ← hm0, natPow_eq] at h
    by_cases hm256 : m0 = ((2 ^ 256 : ℕ) : ℤ)
    · rw [if_pos hm256] at h
      dsimp only at h
      by_cases hov : maxExpBF < e0 + 1
      · rw [if_pos hov] at h
        cases h
      · rw [if_neg hov] at h
        by_cases hun : e0 + 1 < minExpBF
        · rw [if_pos hun, BF.finite.injEq] at h
          left
          exact h.symm
        · rw [if_neg hun, BF.finite.injEq] at h
          right
          refine ⟨((2 ^ 255 : ℕ) : ℤ), e0 + 1, by norm_num, by norm_num,
            by omega, by omega, ?_⟩
          rw [← h, habs_sgn _ _ (by norm_num)]
    · rw [if_neg hm256] at h
      dsimp only at h
      by_cases hov : maxExpBF < e0
      · rw [if_pos hov] at h
        cases h
      · rw [if_neg hov] at h
        by_cases hun : e0 < minExpBF
        · rw [if_pos hun, BF.finite.injEq] at h
          left
          exact h.symm
        · rw [if_neg hun, BF.finite.injEq] at h
          right
          have hm256' : m0 ≠ (2 : ℤ) ^ (256 : ℕ) := by
            intro hcon
            apply hm256
            rw [hcon]
            push_cast
          have hm0_pos : (0 : ℤ) < m0 :=
            lt_of_lt_of_le (by norm_num) hm0_lo
          refine ⟨m0, e0, hm0_lo, by omega, by omega, by omega, ?_⟩
          rw [← h, habs_sgn _ _ hm0_pos]

theorem natLog2_pow (j : ℕ) : natLog2 (2 ^ j) (2 ^ j) = j := by
  have h1 : 1 ≤ 2 ^ j := Nat.one_le_two_pow
  obtain ⟨hl, hr⟩ := natLog2_spec (2 ^ j) (2 ^ j) h1 le_rfl
  have ha : natLog2 (2 ^ j) (2 ^ j) ≤ j := by
    by_contra hcon
    have : (2 : ℕ) ^ j < 2 ^ natLog2 (2 ^ j) (2 ^ j) :=
      Nat.pow_lt_pow_right one_lt_two (by omega)
    omega
  have hb : j ≤ natLog2 (2 ^ j) (2 ^ j) := by
    by_contra hcon
    have : (2 : ℕ) ^ (natLog2 (2 ^ j) (2 ^ j) + 1) ≤ 2 ^ j :=
      Nat.pow_le_pow_right (by norm_num) (by omega)
    omega
  omega

/-- The denominator of `(m : ℚ) * 2 ^ k` divides `2 ^ (-k).toNat`. -/
theorem den_int_mul_zpow (m k : ℤ) : ((m : ℚ) * 2 ^ k).den ∣ 2 ^ (-k).toNat := by
  by_cases hk : 0 ≤ k
  · have h0 : (-k).toNat = 0 := by omega
    have h1 : (m : ℚ) * 2 ^ k = ((m * 2 ^ k.toNat : ℤ) : ℚ) := by
      push_cast
      rw [← zpow_natCast (2 : ℚ) k.toNat, Int.toNat_of_nonneg hk]
    rw [h1, h0, Rat.den_intCast]
    simp
  · have hneg : k < 0 := not_le.mp hk
    have h1 : (m : ℚ) * 2 ^ k = Rat.divInt m ((2 : ℤ) ^ (-k).toNat) := by
      rw [Rat.divInt_eq_div]
      push_cast
      rw [← zpow_natCast (2 : ℚ) (-k).toNat, Int.toNat_of_nonneg (by omega : (0:ℤ) ≤ -k)]
      rw [zpow_neg, div_eq_mul_inv, inv_inv]
    rw [h1]
    have h2 := Rat.den_dvd m ((2 : ℤ) ^ (-k).toNat)
    have h3 : ((2 : ℤ) ^ (-k).toNat) = (((2 ^ (-k).toNat : ℕ) : ℤ)) := by push_cast; ring
    rw [h3] at h2
    exact_mod_cast h2

/-- A nonzero finite result of `round256` rounds to itself. -/
theorem round256_output_eq_self (x q : ℚ) (h : round256 x = .finite q) (hq : q ≠ 0) :
    round256 q = .finite q := by
  rcases round256_finite_abs x q h with h0 | ⟨mq, e, hm_lo, hm_hi, he_lo, he_hi, habs⟩
  · exact absurd h0 hq
  have hmq_pos : (0 : ℤ) < mq := lt_of_lt_of_le (by norm_num) hm_lo
  have hqabs_pos : 0 < |q| := abs_pos.mpr hq
  -- the exponent of q is exactly e
  have hpow255 : ((((2 : ℤ) ^ (255 : ℕ)) : ℤ) : ℚ) = (2 : ℚ) ^ (255 : ℤ) := by
    push_cast
    norm_num [← zpow_natCast]
  have hpow256 : ((((2 : ℤ) ^ (256 : ℕ)) : ℤ) : ℚ) = (2 : ℚ) ^ (256 : ℤ) := by
    push_cast
    norm_num [← zpow_natCast]
  have hlow : (2 : ℚ) ^ (e - 1) ≤ |q| := by
    rw [habs]
    calc (2 : ℚ) ^ (e - 1) = (2 : ℚ) ^ (255 : ℤ) * 2 ^ (e - 256) := by
          rw [← zpow_add₀ (two_ne_zero : (2 : ℚ) ≠ 0)]
          ring_nf
      _ ≤ (mq : ℚ) * 2 ^ (e - 256) := by
          apply mul_le_mul_of_nonneg_right _ (zpow_pos two_pos _).le
          rw [← hpow255]
          exact_mod_cast hm_lo
  have hhighq : |q| < (2 : ℚ) ^ e := by
    rw [habs]
    calc (mq : ℚ) * 2 ^ (e - 256) < (2 : ℚ) ^ (256 : ℤ) * 2 ^ (e - 256) := by
          apply mul_lt_mul_of_pos_right _ (zpow_pos two_pos _)
          rw [← hpow256]
          exact_mod_cast hm_hi
      _ = (2 : ℚ) ^ e := by
          rw [← zpow_add₀ (two_ne_zero : (2 : ℚ) ≠ 0)]
          ring_nf
  have hlog : ratLog2 |q| = e - 1 := ratLog2_eq |q| hqabs_pos e hlow hhighq
  -- q as a dyadic with small mantissa
  have hqe : q = ((if q < 0 then -mq else mq : ℤ) : ℚ) * 2 ^ (e - 256) := by
    by_cases hqn : q < 0
    · have : q = -|q| := by rw [abs_of_neg hqn]; ring
      rw [if_pos hqn]
      rw [this, habs]
      push_cast
      ring
    · have : q = |q| := by rw [abs_of_nonneg (not_lt.mp hqn)]
      rw [if_neg hqn]
      rw [this, habs]
  have hmabs : |(if q < 0 then -mq else mq : ℤ)| < 2 ^ 256 := by
    by_cases hqn : q < 0 <;> simp [hqn, abs_of_pos, hmq_pos] <;> omega
  exact round256_eq_self q _ _ hq hqe hmabs (by omega) (by omega)

/-! ## Scanning the marshalled text of a dyadic value -/

theorem stringMk_ne_of_head_digit {c : Char} {cs : List Char} (hc : isDigitChar c = true)
    (d : Char) (ds : List Char) (hd : isDigitChar d = false) :
    String.mk (c :: cs) ≠ String.mk (d :: ds) := by
  intro h
  injection h with h'
  rw [List.cons.injEq] at h'
  exact ne_of_isDigitChar hc hd h'.1

theorem stringMk_ne_of_head_ne {c d : Char} (h : c ≠ d) (cs ds : List Char) :
    String.mk (c :: cs) ≠ String.mk (d :: ds) := by
  intro hcon
  injection hcon with h'
  rw [List.cons.injEq] at h'
  exact h h'.1

theorem stringMk_ne_of_snd_digit (a : Char) {c : Char} {cs : List Char}
    (hc : isDigitChar c = true) (d : Char) (ds : List Char) (hd : isDigitChar d = false) :
    String.mk (a :: c :: cs) ≠ String.mk (a :: d :: ds) := by
  intro h
  injection h with h'
  rw [List.cons.injEq] at h'
  rw [List.cons.injEq] at h'
  exact ne_of_isDigitChar hc hd h'.2.1

theorem stringMk_data (l : List Char) : (String.mk l).data = l := rfl

theorem scanSign_minus (l : List Char) : scanSign ('-' :: l) = (true, l) := by
  simp [scanSign]

theorem scanSign_digit {c : Char} (hc : isDigitChar c = true) (l : List Char) :
    scanSign (c :: l) = (false, c :: l) := by
  have h1 : c ≠ '+' := ne_of_isDigitChar hc (by decide)
  have h2 : c ≠ '-' := ne_of_isDigitChar hc (by decide)
  simp [scanSign, h1, h2]

theorem scanMantissa_digits (ds rest : List Char) (h1 : ∀ x ∈ ds, isDigitChar x = true)
    (h2 : ∀ x xs, rest = x :: xs → isDigitChar x = false ∧ x ≠ '.') :
    scanMantissa (ds ++ rest) = (ds, [], rest) := by
  obtain ⟨ht, hd⟩ := takeWhile_digits_append ds rest h1 (fun x xs hx => (h2 x xs hx).1)
  simp only [scanMantissa, ht, hd]
  cases rest with
  | nil => simp
  | cons x xs => simp [(h2 x xs rfl).2]

theorem scanExpTail_neg_exp (b : Bool) (i f dse : List Char)
    (hd : ∀ x ∈ dse, isDigitChar x = true) (hne : dse ≠ [])
    (hb : digitsVal dse ≤ 2 ^ 63) :
    scanExpTail b i f ('e' :: '-' :: dse) =
      mkFinTok b i f 10 (-(digitsVal dse : ℤ)) := by
  have hpair := takeWhile_digits_append dse [] hd (by intro x xs hx; cases hx)
  rw [List.append_nil] at hpair
  obtain ⟨ht, hdp⟩ := hpair
  have hlen : ¬ dse.length = 0 := by
    cases dse with
    | nil => exact absurd rfl hne
    | cons x xs => simp
  rw [scanExpTail]
  rw [if_pos (show ('e' = 'e' ∨ 'e' = 'E' ∨ 'e' = 'p' ∨ 'e' = 'P') from Or.inl rfl)]
  rw [if_neg (show ¬ ('e' = 'p' ∨ 'e' = 'P') by decide)]
  simp only [scanSign_minus, ht, hdp]
  rw [if_neg hlen]
  rw [if_neg (by simp : ¬ (([] : List Char).length ≠ 0))]
  rw [if_pos trivial]
  rw [if_pos hb]

theorem mantVal_no_frac (b : Bool) (ds : List Char) (ex : ℤ) :
    mantVal b ds [] 10 ex = (if b then (-1 : ℚ) else 1) * (digitsVal ds : ℚ) * (10 : ℚ) ^ ex := by
  unfold mantVal
  rw [mulPow_ten_eq, mulPow_ten_eq]
  simp only [List.append_nil, List.length_nil, Nat.cast_zero, neg_zero, zpow_zero, mul_one]

theorem mulPow_zero_left (b : ℕ) (e : ℤ) : mulPow 0 b e = 0 := by
  unfold mulPow
  split <;> simp

theorem mantVal_zero (neg : Bool) (i f : List Char) (eb : ℕ) (exp : ℤ)
    (h : digitsVal (i ++ f) = 0) : mantVal neg i f eb exp = 0 := by
  unfold mantVal
  rw [h]
  simp [mulPow_zero_left]

/-- Whatever token the exponent pre-check lets through carries exactly the
scanned literal's value. -/
theorem mkFinTok_val (neg : Bool) (i f : List Char) (eb : ℕ) (exp : ℤ) (t : FloatTok)
    (ht : mkFinTok neg i f eb exp = some t) : t = .fin (mantVal neg i f eb exp) := by
  simp only [mkFinTok] at ht
  split at ht
  · rename_i h0
    rw [mantVal_zero neg i f eb exp h0]
    exact (Option.some.inj ht).symm
  · split at ht
    · cases ht
    · exact (Option.some.inj ht).symm

/-- A nonzero mantissa whose intermediate binary exponent is in int32 range
passes the pre-check. -/
theorem mkFinTok_in_range (neg : Bool) (i f : List Char) (eb : ℕ) (exp : ℤ)
    (h0 : ¬ digitsVal (i ++ f) = 0)
    (hlo : minExpBF ≤ ((natLog2 (digitsVal (i ++ f)) (digitsVal (i ++ f)) + 1 : ℕ) : ℤ)
      - (f.length : ℤ) + exp)
    (hhi : ((natLog2 (digitsVal (i ++ f)) (digitsVal (i ++ f)) + 1 : ℕ) : ℤ)
      - (f.length : ℤ) + exp ≤ maxExpBF) :
    mkFinTok neg i f eb exp = some (.fin (mantVal neg i f eb exp)) := by
  simp only [mkFinTok]
  rw [if_neg h0, if_neg (by push_neg; exact ⟨hlo, hhi⟩)]

/-- The value of the marshalled digit string: for a nonzero dyadic `q` with
denominator `2 ^ j`, the literal digits `N = |num| * 5 ^ j` with decimal
exponent `-j` denote exactly `q`. -/
theorem mantVal_marshal (q : ℚ) (j : ℕ) (hden : q.den = 2 ^ j)
    (b : Bool) (hb : b = true ↔ q.num < 0) :
    mantVal b (natToChars (q.num.natAbs * natPow 5 j)) [] 10 (-(j : ℤ)) = q := by
  rw [mantVal_no_frac]
  have hNval : (digitsVal (natToChars (q.num.natAbs * natPow 5 j)) : ℚ)
      = (q.num.natAbs : ℚ) * 5 ^ j := by
    rw [digitsVal_natToChars]
    push_cast [natPow_eq]
    ring
  rw [hNval]
  have h10 : (10 : ℚ) ^ (-(j : ℤ)) = ((10 : ℚ) ^ j)⁻¹ := by
    rw [zpow_neg, zpow_natCast]
  have h10ne : ((10 : ℚ) ^ j) ≠ 0 := by positivity
  have hqd : q * ((2 : ℚ) ^ j) = (q.num : ℚ) := by
    have h0 := Rat.num_div_den q
    rw [hden] at h0
    push_cast at h0
    field_simp at h0
    linarith
  have hnumAbs : (q.num.natAbs : ℚ) = (if b then (-1 : ℚ) else 1) * (q.num : ℚ) := by
    cases b with
    | true =>
      have hlt : q.num < 0 := hb.mp rfl
      have hltq : ((q.num : ℚ)) < 0 := by exact_mod_cast hlt
      rw [if_pos rfl, Int.cast_natAbs, Int.cast_abs, abs_of_neg hltq]
      ring
    | false =>
      have hge : (0 : ℚ) ≤ (q.num : ℚ) := by
        have h0 : ¬ q.num < 0 := fun hcon => Bool.false_ne_true (hb.mpr hcon)
        exact_mod_cast not_lt.mp h0
      rw [if_neg (by simp : ¬ (false = true)), Int.cast_natAbs, Int.cast_abs,
        abs_of_nonneg hge]
      ring
  rw [h10, ← div_eq_mul_inv, div_eq_iff h10ne]
  rw [hnumAbs]
  have hmulpow : (10 : ℚ) ^ j = 2 ^ j * 5 ^ j := by
    rw [← mul_pow]
    norm_num
  rw [hmulpow, ← mul_assoc q ((2 : ℚ) ^ j) ((5 : ℚ) ^ j), hqd]
  cases b <;> simp

/-- Scanning the decimal text `±N e-j` produced by `marshalBF` for a nonzero
dyadic rational with denominator `2 ^ j` reaches the final exponent
pre-check with exactly the value `q`: whenever the scan accepts the text,
the token is `.fin q` (for an extreme binary exponent the pre-check may
instead report an `exponent overflow` error, as `Float.scan` does). -/
theorem floatScan_marshal_val (q : ℚ) (j : ℕ) (hq : q ≠ 0) (hden : q.den = 2 ^ j)
    (hj : j ≤ 2 ^ 63) (t : FloatTok)
    (ht : floatScan (marshalBF (.finite q)) = some t) : t = .fin q := by
  have hnum_ne : q.num ≠ 0 := Rat.num_ne_zero.mpr hq
  set N : ℕ := q.num.natAbs * natPow 5 j with hN
  have hmar : marshalBF (.finite q) =
      String.mk ((if q.num < 0 then ['-'] else []) ++ natToChars N
        ++ 'e' :: '-' :: natToChars j) := by
    simp only [marshalBF, if_neg hq, hden, natLog2_pow, hN]
  obtain ⟨c, cs, hnc⟩ : ∃ c cs, natToChars N = c :: cs := by
    cases hh : natToChars N with
    | nil => exact absurd hh (natToChars_ne_nil N)
    | cons c cs => exact ⟨c, cs, rfl⟩
  have hcd : isDigitChar c = true :=
    natToChars_digit N c (by rw [hnc]; exact List.mem_cons_self c cs)
  have hcsd : ∀ x ∈ c :: cs, isDigitChar x = true := by
    rw [← hnc]
    exact natToChars_digit N
  have hjd : ∀ x ∈ natToChars j, isDigitChar x = true := natToChars_digit j
  have hjne : natToChars j ≠ [] := natToChars_ne_nil j
  have hjval : digitsVal (natToChars j) = j := digitsVal_natToChars j
  have hb2 : digitsVal (natToChars j) ≤ 2 ^ 63 := by
    rw [hjval]
    exact hj
  have hrest : ∀ x xs, ('e' :: '-' :: natToChars j : List Char) = x :: xs →
      isDigitChar x = false ∧ x ≠ '.' := by
    intro x xs hx
    injection hx with h1 h2
    rw [← h1]
    exact ⟨by decide, by decide⟩
  have hscanM : scanMantissa (c :: (cs ++ 'e' :: '-' :: natToChars j)) =
      (c :: cs, [], 'e' :: '-' :: natToChars j) := by
    have h0 := scanMantissa_digits (c :: cs) ('e' :: '-' :: natToChars j) hcsd hrest
    simpa using h0
  have hexp : ∀ b : Bool, scanExpTail b (c :: cs) [] ('e' :: '-' :: natToChars j) =
      mkFinTok b (c :: cs) [] 10 (-(j : ℤ)) := by
    intro b
    rw [scanExpTail_neg_exp b (c :: cs) [] (natToChars j) hjd hjne hb2, hjval]
  have hfin : ∀ b : Bool, (b = true ↔ q.num < 0) →
      mkFinTok b (c :: cs) [] 10 (-(j : ℤ)) = some t → t = .fin q := by
    intro b hb ht2
    have h1 := mkFinTok_val b (c :: cs) [] 10 (-(j : ℤ)) t ht2
    rw [← hnc, mantVal_marshal q j hden b hb] at h1
    exact h1
  rw [hmar] at ht
  by_cases hqn : q.num < 0
  · rw [if_pos hqn, hnc] at ht
    rw [show (['-'] : List Char) ++ (c :: cs) ++ 'e' :: '-' :: natToChars j =
      '-' :: c :: (cs ++ 'e' :: '-' :: natToChars j) by simp] at ht
    rw [floatScan] at ht
    rw [if_neg ?hneg1, if_neg ?hneg2] at ht
    case hneg1 =>
      push_neg
      exact ⟨stringMk_ne_of_head_ne (by decide) _ _, stringMk_ne_of_head_ne (by decide) _ _,
        stringMk_ne_of_head_ne (by decide) _ _, stringMk_ne_of_head_ne (by decide) _ _⟩
    case hneg2 =>
      push_neg
      exact ⟨stringMk_ne_of_snd_digit '-' hcd 'i' _ (by decide),
        stringMk_ne_of_snd_digit '-' hcd 'I' _ (by decide)⟩
    rw [stringMk_data] at ht
    rw [show scanSign ('-' :: c :: (cs ++ 'e' :: '-' :: natToChars j)) =
      (true, c :: (cs ++ 'e' :: '-' :: natToChars j)) from scanSign_minus _] at ht
    dsimp only at ht
    rw [hscanM] at ht
    dsimp only at ht
    rw [if_neg (by simp)] at ht
    rw [hexp true] at ht
    exact hfin true ⟨fun _ => hqn, fun _ => rfl⟩ ht
  · rw [if_neg hqn, hnc] at ht
    rw [show ([] : List Char) ++ (c :: cs) ++ 'e' :: '-' :: natToChars j =
      c :: (cs ++ 'e' :: '-' :: natToChars j) by simp] at ht
    rw [floatScan] at ht
    rw [if_neg ?hpos1, if_neg ?hpos2] at ht
    case hpos1 =>
      push_neg
      exact ⟨stringMk_ne_of_head_digit hcd 'i' _ (by decide),
        stringMk_ne_of_head_digit hcd 'I' _ (by decide),
        stringMk_ne_of_head_digit hcd '+' _ (by decide),
        stringMk_ne_of_head_digit hcd '+' _ (by decide)⟩
    case hpos2 =>
      push_neg
      exact ⟨stringMk_ne_of_head_digit hcd '-' _ (by decide),
        stringMk_ne_of_head_digit hcd '-' _ (by decide)⟩
    rw [stringMk_data] at ht
    rw [show scanSign (c :: (cs ++ 'e' :: '-' :: natToChars j)) =
      (false, c :: (cs ++ 'e' :: '-' :: natToChars j)) from scanSign_digit hcd _] at ht
    dsimp only at ht
    rw [hscanM] at ht
    dsimp only at ht
    rw [if_neg (by simp)] at ht
    rw [hexp false] at ht
    exact hfin false ⟨fun hcon => absurd hcon (by simp), fun hcon => absurd hcon hqn⟩ ht

/-- `parseJsonNumber` on a leading-zero-free digit run followed by `e-` and a
digit run consumes the whole input and returns the literal's exact value, for
both the unsigned and the `-`-signed spelling (RFC 8259 number grammar). -/
theorem parseJsonNumber_negExp (c : Char) (cs d2 : List Char) (d : Char)
    (hc : isDigitChar c = true) (hc0 : c ≠ '0')
    (hcs : ∀ x ∈ c :: cs, isDigitChar x = true)
    (hde : ∀ x ∈ d :: d2, isDigitChar x = true) :
    parseJsonNumber (c :: (cs ++ 'e' :: '-' :: d :: d2)) =
      some (mantVal false (c :: cs) [] 10 (-(digitsVal (d :: d2) : ℤ)), []) ∧
    parseJsonNumber ('-' :: c :: (cs ++ 'e' :: '-' :: d :: d2)) =
      some (mantVal true (c :: cs) [] 10 (-(digitsVal (d :: d2) : ℤ)), []) := by
  have hcm : c ≠ '-' := ne_of_isDigitChar hc (by decide)
  have hdd : isDigitChar d = true := hde d (List.mem_cons_self d d2)
  have hspanM : (c :: (cs ++ 'e' :: '-' :: d :: d2)).span isDigitChar
      = (c :: cs, 'e' :: '-' :: d :: d2) := by
    rw [List.span_eq_take_drop]
    have h0 := takeWhile_digits_append (c :: cs) ('e' :: '-' :: d :: d2) hcs
      (fun x xs hx => by injection hx with h1 _; rw [← h1]; decide)
    rw [show ((c :: cs) ++ ('e' :: '-' :: d :: d2) : List Char)
        = c :: (cs ++ 'e' :: '-' :: d :: d2) from rfl] at h0
    rw [h0.1, h0.2]
  have hspanE : (d :: d2).span isDigitChar = (d :: d2, []) := by
    rw [List.span_eq_take_drop]
    have h0 := takeWhile_digits_append (d :: d2) [] hde (fun x xs hx => by cases hx)
    rw [List.append_nil] at h0
    rw [h0.1, h0.2]
  constructor
  · unfold parseJsonNumber
    split
    · rename_i rest heq
      injection heq with h1 _
      exact absurd h1 hcm
    · dsimp only
      split
      · rename_i heq
        split at heq
        · exact Option.noConfusion heq
        · rename_i u cx restx hov heqp
          injection heqp with h1 h2
          subst h1
          split at heq
          · exact Option.noConfusion heq
          · rename_i hnd
            exact absurd hc hnd
        · rename_i u heqp
          exact List.noConfusion heqp
      · rename_i c' rest' heq
        split at heq
        · rename_i u rest0 heqp
          injection heqp with h1 _
          exact absurd h1 hc0
        · rename_i u cx restx hov heqp
          injection heqp with h1 h2
          subst h1
          subst h2
          rw [if_pos hc, hspanM] at heq
          simp only [Option.some.injEq, Prod.mk.injEq] at heq
          obtain ⟨h3, h4⟩ := heq
          subst h3
          subst h4
          split
          · rename_i heq
            split at heq
            all_goals first
              | exact Option.noConfusion heq
              | (rename_i heqp
                 injection heqp with h5 h6
                 exact absurd h5 (by decide))
          · rename_i fracDs r2 heq
            split at heq
            · rename_i heqp
              injection heqp with h5 h6
              exact absurd h5 (by decide)
            · exact Option.noConfusion heq
            · simp only [Option.some.injEq, Prod.mk.injEq] at heq
              obtain ⟨h5, h6⟩ := heq
              subst h5
              subst h6
              split
              · rename_i heq
                split at heq
                · rename_i restx heqp
                  injection heqp with h9 h10
                  subst h10
                  rw [show (match ('-' :: d :: d2 : List Char) with
                      | '+' :: r => (false, r)
                      | '-' :: r => (true, r)
                      | r => (false, r)) = ((true, d :: d2) : Bool × List Char) from rfl] at heq
                  dsimp only at heq
                  rw [if_pos hdd] at heq
                  exact Option.noConfusion heq
                · rename_i restx heqp
                  injection heqp with h9 _
                  exact absurd h9 (by decide)
                · rename_i hov1 hov2
                  exact absurd rfl (hov1 ('-' :: d :: d2))
              · rename_i ex r3 heq
                split at heq
                · rename_i restx heqp
                  injection heqp with h9 h10
                  subst h10
                  rw [show (match ('-' :: d :: d2 : List Char) with
                      | '+' :: r => (false, r)
                      | '-' :: r => (true, r)
                      | r => (false, r)) = ((true, d :: d2) : Bool × List Char) from rfl] at heq
                  dsimp only at heq
                  rw [if_pos hdd, hspanE] at heq
                  dsimp only at heq
                  rw [if_pos rfl] at heq
                  simp only [Option.some.injEq, Prod.mk.injEq] at heq
                  obtain ⟨h7, h8⟩ := heq
                  subst h7
                  subst h8
                  rfl
                · rename_i restx heqp
                  injection heqp with h9 _
                  exact absurd h9 (by decide)
                · rename_i hov1 hov2
                  exact absurd rfl (hov1 ('-' :: d :: d2))
        · rename_i u heqp
          exact List.noConfusion heqp
  · unfold parseJsonNumber
    split
    · rename_i rest heq
      injection heq with h1 h2
      subst h2
      dsimp only
      split
      · rename_i heq
        split at heq
        · exact Option.noConfusion heq
        · rename_i u cx restx hov heqp
          injection heqp with h1 h2
          subst h1
          split at heq
          · exact Option.noConfusion heq
          · rename_i hnd
            exact absurd hc hnd
        · rename_i u heqp
          exact List.noConfusion heqp
      · rename_i c' rest' heq
        split at heq
        · rename_i u rest0 heqp
          injection heqp with h1 _
          exact absurd h1 hc0
        · rename_i u cx restx hov heqp
          injection heqp with h1 h2
          subst h1
          subst h2
          rw [if_pos hc, hspanM] at heq
          simp only [Option.some.injEq, Prod.mk.injEq] at heq
          obtain ⟨h3, h4⟩ := heq
          subst h3
          subst h4
          split
          · rename_i heq
            split at heq
            all_goals first
              | exact Option.noConfusion heq
              | (rename_i heqp
                 injection heqp with h5 h6
                 exact absurd h5 (by decide))
          · rename_i fracDs r2 heq
            split at heq
            · rename_i heqp
              injection heqp with h5 h6
              exact absurd h5 (by decide)
            · exact Option.noConfusion heq
            · simp only [Option.some.injEq, Prod.mk.injEq] at heq
              obtain ⟨h5, h6⟩ := heq
              subst h5
              subst h6
              split
              · rename_i heq
                split at heq
                · rename_i restx heqp
                  injection heqp with h9 h10
                  subst h10
                  rw [show (match ('-' :: d :: d2 : List Char) with
                      | '+' :: r => (false, r)
                      | '-' :: r => (true, r)
                      | r => (false, r)) = ((true, d :: d2) : Bool × List Char) from rfl] at heq
                  dsimp only at heq
                  rw [if_pos hdd] at heq
                  exact Option.noConfusion heq
                · rename_i restx heqp
                  injection heqp with h9 _
                  exact absurd h9 (by decide)
                · rename_i hov1 hov2
                  exact absurd rfl (hov1 ('-' :: d :: d2))
              · rename_i ex r3 heq
                split at heq
                · rename_i restx heqp
                  injection heqp with h9 h10
                  subst h10
                  rw [show (match ('-' :: d :: d2 : List Char) with
                      | '+' :: r => (false, r)
                      | '-' :: r => (true, r)
                      | r => (false, r)) = ((true, d :: d2) : Bool × List Char) from rfl] at heq
                  dsimp only at heq
                  rw [if_pos hdd, hspanE] at heq
                  dsimp only at heq
                  rw [if_pos rfl] at heq
                  simp only [Option.some.injEq, Prod.mk.injEq] at heq
                  obtain ⟨h7, h8⟩ := heq
                  subst h7
                  subst h8
                  rfl
                · rename_i restx heqp
                  injection heqp with h9 _
                  exact absurd h9 (by decide)
                · rename_i hov1 hov2
                  exact absurd rfl (hov1 ('-' :: d :: d2))
        · rename_i u heqp
          exact List.noConfusion heqp
    · rename_i hov
      exact absurd rfl (hov (c :: (cs ++ 'e' :: '-' :: d :: d2)))

/-- The standard JSON numeric reading of the marshalled text of a nonzero
dyadic rational recovers exactly the stored value. -/
theorem jsonNumValue_marshal_finite (q : ℚ) (j : ℕ) (hq : q ≠ 0) (hden : q.den = 2 ^ j) :
    jsonNumValue (marshalBF (.finite q)) = some q := by
  have hnum_ne : q.num ≠ 0 := Rat.num_ne_zero.mpr hq
  set N : ℕ := q.num.natAbs * natPow 5 j with hN
  have hmar : marshalBF (.finite q) =
      String.mk ((if q.num < 0 then ['-'] else []) ++ natToChars N
        ++ 'e' :: '-' :: natToChars j) := by
    simp only [marshalBF, if_neg hq, hden, natLog2_pow, hN]
  have hN1 : 1 ≤ N := by
    have h1 : 1 ≤ q.num.natAbs := by omega
    have h2 : 1 ≤ natPow 5 j := by
      rw [natPow_eq]
      exact Nat.one_le_pow j 5 (by norm_num)
    have h3 := Nat.mul_le_mul h1 h2
    simpa [hN] using h3
  obtain ⟨c, cs, hnc, hcd, hc0⟩ := natToChars_head N hN1
  have hcs : ∀ x ∈ c :: cs, isDigitChar x = true := by
    rw [← hnc]
    exact natToChars_digit N
  have hjval : digitsVal (natToChars j) = j := digitsVal_natToChars j
  obtain ⟨dj, dj2, hdj⟩ : ∃ dj dj2, natToChars j = dj :: dj2 := by
    cases hh : natToChars j with
    | nil => exact absurd hh (natToChars_ne_nil j)
    | cons dj dj2 => exact ⟨dj, dj2, rfl⟩
  have hde : ∀ x ∈ dj :: dj2, isDigitChar x = true := by
    rw [← hdj]
    exact natToChars_digit j
  have hdigj : digitsVal (dj :: dj2) = j := by
    rw [← hdj]
    exact hjval
  obtain ⟨hpos, hneg⟩ := parseJsonNumber_negExp c cs dj2 dj hcd hc0 hcs hde
  unfold jsonNumValue
  rw [hmar]
  by_cases hqn : q.num < 0
  · rw [if_pos hqn, hnc, hdj]
    rw [show ((['-'] : List Char) ++ (c :: cs) ++ 'e' :: '-' :: dj :: dj2 : List Char)
        = '-' :: c :: (cs ++ 'e' :: '-' :: dj :: dj2) by simp]
    rw [stringMk_data, hneg]
    dsimp only
    rw [hdigj, ← hnc, mantVal_marshal q j hden true ⟨fun _ => hqn, fun _ => rfl⟩]
  · rw [if_neg hqn, hnc, hdj]
    rw [show (([] : List Char) ++ (c :: cs) ++ 'e' :: '-' :: dj :: dj2 : List Char)
        = c :: (cs ++ 'e' :: '-' :: dj :: dj2) by simp]
    rw [stringMk_data, hpos]
    dsimp only
    rw [hdigj, ← hnc,
      mantVal_marshal q j hden false
        ⟨fun hcon => absurd hcon (by simp), fun hcon => absurd hcon hqn⟩]

/-- Reparsing the adapter's text of a finite 256-bit value: the standard JSON
numeric reading returns exactly the stored value, the value re-rounds to
itself at 256 bits, and whenever the 256-bit decimal parser accepts the text
it returns exactly the stored value. -/
theorem marshal_reparse_finite (x r : ℚ) (h : round256 x = .finite r) :
    jsonNumValue (marshalBF (.finite r)) = some r ∧
    round256 r = .finite r ∧
    ∀ t, floatScan (marshalBF (.finite r)) = some t → t = .fin r := by
  by_cases hr0 : r = 0
  · subst hr0
    refine ⟨by with_unfolding_all decide, by with_unfolding_all decide, ?_⟩
    intro t ht
    have h0 : floatScan (marshalBF (.finite 0)) = some (.fin 0) := by
      with_unfolding_all decide
    rw [h0] at ht
    exact (Option.some.inj ht).symm
  · rcases round256_finite_abs x r h with h0 | ⟨mq, e, hm_lo, hm_hi, he_lo, he_hi, habs⟩
    · exact absurd h0 hr0
    have hdvd : r.den ∣ 2 ^ (-(e - 256)).toNat := by
      have h1 : |r|.den ∣ 2 ^ (-(e - 256)).toNat := by
        rw [habs]
        exact den_int_mul_zpow mq (e - 256)
      rcases abs_choice r with hc | hc
      · rw [hc] at h1
        exact h1
      · rw [hc] at h1
        simpa using h1
    obtain ⟨j, hjle, hden⟩ := (Nat.dvd_prime_pow Nat.prime_two).mp hdvd
    have hj63 : j ≤ 2 ^ 63 := by
      have hmin : minExpBF = -(2147483648 : ℤ) := by norm_num [minExpBF]
      rw [hmin] at he_lo
      have h63 : (2 : ℕ) ^ 63 = 9223372036854775808 := by norm_num
      omega
    exact ⟨jsonNumValue_marshal_finite r j hr0 hden,
      round256_output_eq_self x r h hr0,
      fun t ht => floatScan_marshal_val r j hr0 hden hj63 t ht⟩

/-! ## The classification chain, case by case -/

theorem coercion_int {s : String} {n : ℤ} (h : intSetString s = some n) :
    coercion s = .vint n := by
  simp [coercion, h]

theorem coercion_float {s : String} {f : BF} (h1 : intSetString s = none)
    (h2 : parseFloat256 s = some f) : coercion s = .vfloat f := by
  simp [coercion, h1, h2]

theorem coercion_bool {s : String} {b : Bool} (h1 : intSetString s = none)
    (h2 : parseFloat256 s = none) (h3 : strconvParseBool s = some b) :
    coercion s = .vbool b := by
  simp [coercion, h1, h2, h3]

theorem coercion_json {s : String} {j : Json} (h1 : intSetString s = none)
    (h2 : parseFloat256 s = none) (h3 : strconvParseBool s = none)
    (h4 : jsonUnmarshal s = some j) : coercion s = .vjson j := by
  simp [coercion, h1, h2, h3, h4]

theorem coercion_str {s : String} (h1 : intSetString s = none)
    (h2 : parseFloat256 s = none) (h3 : strconvParseBool s = none)
    (h4 : jsonUnmarshal s = none) : coercion s = .vstr s := by
  simp [coercion, h1, h2, h3, h4]

/-! ## `big.Int` decimal round-trip -/

theorem intSetString_bigIntText (n : ℤ) : intSetString (bigIntText n) = some n := by
  have hd := natToChars_digit n.natAbs
  have hne := natToChars_ne_nil n.natAbs
  have hparse : parseAllDigits (natToChars n.natAbs) = some n.natAbs := by
    rw [parseAllDigits_eq _ hne hd, digitsVal_natToChars]
  by_cases hn : n < 0
  · rw [bigIntText, if_pos hn]
    show (if ('-' : Char) = '+' then (parseAllDigits (natToChars n.natAbs)).map (fun m => (m : ℤ))
      else if ('-' : Char) = '-' then
        (parseAllDigits (natToChars n.natAbs)).map (fun m => -(m : ℤ))
      else (parseAllDigits ('-' :: natToChars n.natAbs)).map (fun m => (m : ℤ))) = some n
    rw [if_neg (by decide), if_pos rfl, hparse]
    show some (-(n.natAbs : ℤ)) = some n
    congr 1
    omega
  · rw [bigIntText, if_neg hn]
    obtain ⟨c, cs, hnc⟩ : ∃ c cs, natToChars n.natAbs = c :: cs := by
      cases hh : natToChars n.natAbs with
      | nil => exact absurd hh hne
      | cons c cs => exact ⟨c, cs, rfl⟩
    have hcd : isDigitChar c = true := hd c (by rw [hnc]; exact List.mem_cons_self c cs)
    rw [hnc]
    show (if c = '+' then (parseAllDigits cs).map (fun m => (m : ℤ))
      else if c = '-' then (parseAllDigits cs).map (fun m => -(m : ℤ))
      else (parseAllDigits (c :: cs)).map (fun m => (m : ℤ))) = some n
    rw [if_neg (ne_of_isDigitChar hcd (by decide)),
      if_neg (ne_of_isDigitChar hcd (by decide)), ← hnc, hparse]
    show some ((n.natAbs : ℤ)) = some n
    congr 1
    omega

/-! ## The value `1e10` -/

theorem mantVal_one_e_ten : mantVal false ['1'] [] 10 10 = 10000000000 := by
  rw [mantVal_no_frac]
  have h1 : digitsVal ['1'] = 1 := by decide
  rw [h1]
  have h2 : (10 : ℚ) ^ (10 : ℤ) = 10000000000 := by
    rw [show (10 : ℤ) = ((10 : ℕ) : ℤ) from rfl, zpow_natCast]
    norm_num
  rw [h2]
  norm_num

theorem ratLog2_add_one_bounds {q : ℚ} {lo hi : ℤ} (hq : 0 < q)
    (h1 : (2 : ℚ) ^ lo ≤ q) (h2 : q < (2 : ℚ) ^ hi) :
    lo ≤ ratLog2 q + 1 ∧ ratLog2 q + 1 ≤ hi := by
  obtain ⟨hl, hr⟩ := ratLog2_spec q hq
  constructor
  · by_contra hcon
    have hmono : (2 : ℚ) ^ (ratLog2 q + 1) ≤ 2 ^ lo :=
      zpow_le_zpow_right₀ one_le_two (by omega)
    linarith
  · by_contra hcon
    have hmono : (2 : ℚ) ^ hi ≤ 2 ^ ratLog2 q :=
      zpow_le_zpow_right₀ one_le_two (by omega)
    linarith

theorem round256_ten_pow_ten : round256 (10000000000 : ℚ) = .finite 10000000000 := by
  have hq : (10000000000 : ℚ) ≠ 0 := by norm_num
  have habs : |(10000000000 : ℚ)| = 10000000000 := abs_of_pos (by norm_num)
  have hb := @ratLog2_add_one_bounds (10000000000 : ℚ) 0 40
    (by norm_num)
    (by rw [zpow_zero]; norm_num)
    (by
      rw [show (40 : ℤ) = ((40 : ℕ) : ℤ) from rfl, zpow_natCast]
      norm_num)
  apply round256_eq_self _ (10000000000 : ℤ) 0 hq
  · push_cast
    rw [zpow_zero]
    ring
  · norm_num
  · rw [habs]
    have hmin : minExpBF = -(2147483648 : ℤ) := by norm_num [minExpBF]
    omega
  · rw [habs]
    have hmax : maxExpBF = (2147483647 : ℤ) := by norm_num [maxExpBF]
    omega

/-! ## The claims -/

/-- C1: for every input string, `Add` classifies the value by attempting, in
this exact order, big-integer parse, 256-bit decimal parse, boolean parse,
standalone-JSON parse, and the plain-string fallback; the first parser that
accepts determines the stored representation (exactly one tag, since
`coercion` is a function into the tagged union). -/
theorem claim_C1 (s : String) :
    (∀ n, intSetString s = some n → coercion s = .vint n) ∧
    (∀ f, intSetString s = none → parseFloat256 s = some f → coercion s = .vfloat f) ∧
    (∀ b, intSetString s = none → parseFloat256 s = none → strconvParseBool s = some b →
      coercion s = .vbool b) ∧
    (∀ j, intSetString s = none → parseFloat256 s = none → strconvParseBool s = none →
      jsonUnmarshal s = some j → coercion s = .vjson j) ∧
    (intSetString s = none → parseFloat256 s = none → strconvParseBool s = none →
      jsonUnmarshal s = none → coercion s = .vstr s) := by
  refine ⟨?_, ?_, ?_, ?_, ?_⟩ <;> intros <;> simp [coercion, *]

theorem claim_C1_witness :
    coercion "12" = .vint 12 ∧ coercion "inf" = .vfloat (.inf false) ∧
    coercion "True" = .vbool true ∧ coercion "null" = .vjson .null ∧
    coercion "0x10" = .vstr "0x10" :=
  ⟨(claim_C1 "12").1 12 (by decide),
   (claim_C1 "inf").2.1 (.inf false) (by decide) (by decide),
   (claim_C1 "True").2.2.1 true (by decide) (by decide) (by decide),
   (claim_C1 "null").2.2.2.1 .null (by decide) (by decide) (by decide) (by decide),
   (claim_C1 "0x10").2.2.2.2 (by decide) (by decide) (by decide) (by decide)⟩

/-- C2: starting from the empty collection, `Add("k", v1); Add("k", v2)`
stores the sequence `[coerce v1, coerce v2]` at `"k"` in call order, and a
single `Add("k", v1)` stores the one-element sequence `[coerce v1]` — values
are appended, never overwritten, and never stored as bare scalars. -/
theorem claim_C2 (k v1 v2 : String) :
    (typedValues.Add (typedValues.Add typedValues.empty k v1) k v2) k
        = [coercion v1, coercion v2] ∧
    (typedValues.Add typedValues.empty k v1) k = [coercion v1] := by
  constructor <;> simp [typedValues.Add, typedValues.empty]

/-- C3: the coercion of `"0x10"` is the plain string `"0x10"`, of `""` the
empty string, of `"null"` the JSON null, and of `"[1,2]"` the JSON array
`[1,2]`. -/
theorem claim_C3 :
    coercion "0x10" = .vstr "0x10" ∧ coercion "" = .vstr "" ∧
    coercion "null" = .vjson .null ∧
    coercion "[1,2]" = .vjson (.arr (.cons (.num 1) (.cons (.num 2) .nil))) := by
  refine ⟨?_, ?_, ?_, ?_⟩ <;> with_unfolding_all decide

/-- C4: `"1e10"` is rejected by the integer parser but accepted by the
256-bit decimal parser (whose grammar includes exponents) with exact value
`10^10`, so its coercion is the decimal value in the numeric adapter — not a
JSON value and not a string. -/
theorem claim_C4 :
    intSetString "1e10" = none ∧
    floatScan "1e10" = some (.fin (10000000000 : ℚ)) ∧
    coercion "1e10" = .vfloat (.finite (10000000000 : ℚ)) := by
  have hscan0 : floatScan "1e10" = mkFinTok false ['1'] [] 10 10 := rfl
  have hmk : mkFinTok false ['1'] [] 10 10 = some (.fin (mantVal false ['1'] [] 10 10)) := by
    apply mkFinTok_in_range false ['1'] [] 10 10 <;> decide
  have hscan : floatScan "1e10" = some (.fin (10000000000 : ℚ)) := by
    rw [hscan0, hmk, mantVal_one_e_ten]
  refine ⟨by decide, hscan, ?_⟩
  apply coercion_float (by decide)
  unfold parseFloat256
  rw [hscan]
  show some (round256 10000000000) = some (BF.finite 10000000000)
  rw [round256_ten_pow_ten]

/-- C5: every string accepted by the step-1 integer grammar is stored as an
unbounded integer equal to its big-integer parse, and serializing that
integer to decimal text and reparsing it yields the same integer. -/
theorem claim_C5 (s : String) (n : ℤ) (h : intSetString s = some n) :
    coercion s = .vint n ∧ intSetString (bigIntText n) = some n :=
  ⟨coercion_int h, intSetString_bigIntText n⟩

theorem claim_C5_witness :
    coercion "-42" = .vint (-42) ∧ intSetString (bigIntText (-42)) = some (-42) :=
  claim_C5 "-42" (-42) (by decide)

/-- C6: every string accepted by the step-2 decimal grammar (including its
exponent-overflow pre-check) but not by step 1 is stored as the 256-bit
round-to-nearest-even rounding of its exact mathematical value, wrapped in
the numeric adapter; the adapter's numeric text for a finite stored value
parses, as a standard JSON number, to exactly the stored value — so
reparsing at 256-bit precision reproduces the stored value (`round256 r`
re-rounds to itself), and the 256-bit decimal parser never reads the text
back as a different value; the infinity texts reparse by the 256-bit decimal
parser to the same infinities. -/
theorem claim_C6 (s : String) (q : ℚ) (h1 : intSetString s = none)
    (h2 : floatScan s = some (.fin q)) :
    coercion s = .vfloat (round256 q) ∧
    (∀ r : ℚ, round256 q = .finite r →
      jsonNumValue (marshalBF (.finite r)) = some r ∧
      round256 r = round256 q ∧
      ∀ t, floatScan (marshalBF (.finite r)) = some t → t = .fin r) ∧
    (∀ b, round256 q = .inf b → parseFloat256 (marshalBF (.inf b)) = some (.inf b)) := by
  refine ⟨?_, ?_, ?_⟩
  · apply coercion_float h1
    unfold parseFloat256
    rw [h2]
    rfl
  · intro r hr
    obtain ⟨hjson, hself, hval⟩ := marshal_reparse_finite q r hr
    exact ⟨hjson, by rw [hself, hr], hval⟩
  · intro b hb
    cases b <;> decide

theorem claim_C6_witness :
    coercion "3.14" = .vfloat (round256 (157 / 50)) ∧
    (∀ r : ℚ, round256 (157 / 50) = .finite r →
      jsonNumValue (marshalBF (.finite r)) = some r ∧
      round256 r = round256 (157 / 50) ∧
      ∀ t, floatScan (marshalBF (.finite r)) = some t → t = .fin r) ∧
    (∀ b, round256 (157 / 50) = .inf b →
      parseFloat256 (marshalBF (.inf b)) = some (.inf b)) :=
  claim_C6 "3.14" (157 / 50) (by decide) (by with_unfolding_all decide)

/-- C7: `"true"` and `"false"` fail the integer and decimal parsers and are
classified as the booleans `true` and `false`; `"True"` is likewise accepted
by `strconv.ParseBool` and always yields `true` (coercion is a function, so
the result is the same on every call). -/
theorem claim_C7 :
    intSetString "true" = none ∧ parseFloat256 "true" = none ∧
    strconvParseBool "true" = some true ∧ coercion "true" = .vbool true ∧
    intSetString "false" = none ∧ parseFloat256 "false" = none ∧
    strconvParseBool "false" = some false ∧ coercion "false" = .vbool false ∧
    coercion "True" = .vbool true := by
  refine ⟨?_, ?_, ?_, ?_, ?_, ?_, ?_, ?_, ?_⟩ <;> decide

/-- C8: `Add` is total: for every collection, every key (including the empty
key) and every value (including the empty string) it performs exactly one
well-defined append and returns normally, and the string fallback makes
classification succeed on every input the other four parsers reject. -/
theorem claim_C8 (m : typedValues) (k v : String) :
    (∃ tv : TypedValue,
      typedValues.Add m k v = fun kk => if kk = k then m kk ++ [tv] else m kk) ∧
    (intSetString v = none → parseFloat256 v = none → strconvParseBool v = none →
      jsonUnmarshal v = none → coercion v = .vstr v) := by
  constructor
  · refine ⟨coercion v, ?_⟩
    funext kk
    by_cases h : kk = k
    · simp [typedValues.Add, h]
    · simp [typedValues.Add, h]
  · intro h1 h2 h3 h4
    simp [coercion, h1, h2, h3, h4]

theorem claim_C8_witness :
    (∃ tv : TypedValue, typedValues.Add typedValues.empty "" "" =
      fun kk => if kk = "" then typedValues.empty kk ++ [tv] else typedValues.empty kk) ∧
    coercion "~hello" = .vstr "~hello" :=
  ⟨(claim_C8 typedValues.empty "" "").1,
   (claim_C8 typedValues.empty "" "~hello").2 (by decide) (by decide) (by decide) (by decide)⟩

/-- C9: each `Add(k, v)` call appends exactly one element to the sequence at
key `k` (keeping every previously stored element) and leaves the sequence at
every other key unchanged. -/
theorem claim_C9 (m : typedValues) (k v : String) :
    (typedValues.Add m k v) k = m k ++ [coercion v] ∧
    ∀ k', k' ≠ k → (typedValues.Add m k v) k' = m k' := by
  constructor
  · simp [typedValues.Add]
  · intro k' hk
    simp [typedValues.Add, hk]

theorem claim_C9_witness :
    (typedValues.Add typedValues.empty "a" "1") "a"
        = typedValues.empty "a" ++ [coercion "1"] ∧
    (typedValues.Add typedValues.empty "a" "1") "b" = typedValues.empty "b" :=
  ⟨(claim_C9 typedValues.empty "a" "1").1,
   (claim_C9 typedValues.empty "a" "1").2 "b" (by decide)⟩

/-- C10: the decimal parser accepts the infinity spellings, so `"inf"`,
`"Inf"` and `"+inf"` coerce to the positive decimal infinity and `"-inf"` to
the negative one (never to the string branch), and the numeric adapter
serializes these as the texts `"+Inf"` / `"-Inf"`, which are not valid JSON
documents. -/
theorem claim_C10 :
    coercion "inf" = .vfloat (.inf false) ∧ coercion "Inf" = .vfloat (.inf false) ∧
    coercion "+inf" = .vfloat (.inf false) ∧ coercion "-inf" = .vfloat (.inf true) ∧
    marshalBF (.inf false) = "+Inf" ∧ marshalBF (.inf true) = "-Inf" ∧
    jsonUnmarshal "+Inf" = none := by
  refine ⟨?_, ?_, ?_, ?_, ?_, ?_, ?_⟩ <;> decide

end Ini2Json
